import Mathlib

/-! Shallow embedding of the FillWrds core: the grid-generation engine
(grid.js) and the selection validator (validator.js).

Randomness (Math.random) is modelled by explicit oracle parameters:
each word gets a shuffled direction list and a stream of (row, col)
picks, and the filler pass gets an index source per cell.  The predicate
WordRand.Valid states exactly what the JavaScript source guarantees
about those draws (the direction list is a permutation of the 8
direction entries, and every pick is in range). -/

/-- A grid coordinate: integer row and column (player selections may be
out of bounds, so coordinates are integers). -/
structure Cell where
  row : Int
  col : Int
deriving DecidableEq, Repr

/-- Character-wise lowercasing, modelling JavaScript toLowerCase. -/
def jsToLower (s : String) : String := String.mk (s.data.map Char.toLower)

/-- String reversal, modelling s.split('').reverse().join(''). -/
def jsReverse (s : String) : String := String.mk (s.data.reverse)

/-- The validator's DIRECTION_NAMES table (validator.js): unit vector to name. -/
def validatorDirName (dr dc : Int) : Option String :=
  if dr = 0 ∧ dc = 1 then some "right"
  else if dr = 0 ∧ dc = -1 then some "left"
  else if dr = 1 ∧ dc = 0 then some "down"
  else if dr = -1 ∧ dc = 0 then some "up"
  else if dr = 1 ∧ dc = 1 then some "down-right"
  else if dr = 1 ∧ dc = -1 then some "down-left"
  else if dr = -1 ∧ dc = 1 then some "up-right"
  else if dr = -1 ∧ dc = -1 then some "up-left"
  else none

/-- Result of getLineDirection: the common step and its name (if any). -/
structure LineDir where
  dr : Int
  dc : Int
  dirName : Option String
deriving DecidableEq, Repr

/-- The loop of getLineDirection: every consecutive pair shares delta (dr, dc). -/
def sameDelta (dr dc : Int) : Cell → List Cell → Bool
  | _, [] => true
  | prev, c :: rest =>
    (c.row - prev.row == dr) && (c.col - prev.col == dc) && sameDelta dr dc c rest

/-- validator.js getLineDirection. -/
def getLineDirection (cells : List Cell) : Option LineDir :=
  match cells with
  | [] => some ⟨0, 0, none⟩
  | [_] => some ⟨0, 0, none⟩
  | c0 :: c1 :: rest =>
    let dr := c1.row - c0.row
    let dc := c1.col - c0.col
    if sameDelta dr dc c1 rest then
      match validatorDirName dr dc with
      | some nm => some ⟨dr, dc, some nm⟩
      | none => none
    else none

/-- Tail of the consecutive-duplicate filter in normalizeSelection. -/
def dedupeFrom : Cell → List Cell → List Cell
  | _, [] => []
  | prev, c :: rest => if c = prev then dedupeFrom c rest else c :: dedupeFrom c rest

/-- The filter in normalizeSelection: drop cells equal to their predecessor. -/
def dedupe : List Cell → List Cell
  | [] => []
  | c :: rest => c :: dedupeFrom c rest

/-- validator.js normalizeSelection. -/
def normalizeSelection (cells : List Cell) : Option (List Cell) :=
  if cells.isEmpty then none
  else if (dedupe cells).length = 0 then none
  else if (dedupe cells).length = 1 then some (dedupe cells)
  else if (getLineDirection (dedupe cells)).isSome then some (dedupe cells)
  else none

/-- validator.js SelectionResult. -/
structure SelectionResult where
  valid : Bool
  found : Bool
  word : Option String
  direction : Option String
  startCell : Option Cell
  cells : List Cell
deriving DecidableEq, Repr

/-- The EMPTY result of checkSelection. -/
def emptyResult : SelectionResult := ⟨false, false, none, none, none, []⟩

/-- grid[row][col], with a default for out-of-range access. -/
def gridChar (grid : List (List Char)) (c : Cell) : Char :=
  (grid.getD c.row.toNat []).getD c.col.toNat ' '

/-- The bounds test of checkSelection: 0 ≤ row,col < size. -/
def inB (size : Nat) (c : Cell) : Prop :=
  0 ≤ c.row ∧ c.row < (size : Int) ∧ 0 ≤ c.col ∧ c.col < (size : Int)

instance (size : Nat) (c : Cell) : Decidable (inB size c) :=
  inferInstanceAs (Decidable
    (0 ≤ c.row ∧ c.row < (size : Int) ∧ 0 ≤ c.col ∧ c.col < (size : Int)))

/-- The direction name reported for a matched cell sequence
(lineDir?.dirName ?? null in the source). -/
def lineName (cs : List Cell) : Option String :=
  (getLineDirection cs).bind LineDir.dirName

/-- The found-branch result of checkSelection. -/
def mkFound (w : String) (matchedCells : List Cell) : SelectionResult :=
  ⟨true, true, some w, lineName matchedCells, matchedCells.head?, matchedCells⟩

/-- The string read from the grid along a list of cells. -/
def readStr (grid : List (List Char)) (cs : List Cell) : String :=
  String.mk (cs.map (gridChar grid))

/-- validator.js checkSelection. -/
def checkSelection (grid : List (List Char)) (cells : List Cell)
    (targetWords : List String) : SelectionResult :=
  match normalizeSelection cells with
  | none => emptyResult
  | some normalized =>
    if normalized.all (fun c => decide (inB grid.length c)) then
      if (targetWords.map jsToLower).contains (jsToLower (readStr grid normalized)) then
        mkFound (jsToLower (readStr grid normalized)) normalized
      else if (targetWords.map jsToLower).contains
          (jsToLower (jsReverse (readStr grid normalized))) then
        mkFound (jsToLower (jsReverse (readStr grid normalized))) normalized.reverse
      else ⟨true, false, none, none, none, normalized⟩
    else emptyResult

/-- validator.js isGameWon. -/
def isGameWon (foundWords targetWords : List String) : Bool :=
  if targetWords.length = 0 then false
  else
    let found := foundWords.map jsToLower
    targetWords.all (fun w => found.contains (jsToLower w))

/-- grid.js DIRECTIONS paired with DIRECTION_NAMES (as built in tryPlaceWord). -/
structure DirEntry where
  dr : Int
  dc : Int
  name : String
deriving DecidableEq, Repr

/-- The eight direction entries, in source order. -/
def dirEntries : List DirEntry :=
  [⟨0, 1, "right"⟩, ⟨0, -1, "left"⟩, ⟨1, 0, "down"⟩, ⟨-1, 0, "up"⟩,
   ⟨1, 1, "down-right"⟩, ⟨1, -1, "down-left"⟩, ⟨-1, 1, "up-right"⟩, ⟨-1, -1, "up-left"⟩]

/-- The generation-time grid: cells are unset (none) or hold a character. -/
abbrev OGrid := List (List (Option Char))

/-- grid.js createEmptyGrid. -/
def createEmptyGrid (size : Nat) : OGrid :=
  List.replicate size (List.replicate size none)

/-- Read a generation-grid cell. -/
def ogGet (g : OGrid) (r c : Nat) : Option Char :=
  (g.getD r []).getD c none

/-- Write one generation-grid cell (out-of-range writes are no-ops). -/
def setCell (g : OGrid) (r c : Nat) (ch : Char) : OGrid :=
  g.set r ((g.getD r []).set c (some ch))

/-- A cell is usable for a letter when it is unset or already holds that
letter (the null-or-equal test in canPlace). -/
def cellFree (o : Option Char) (ch : Char) : Bool :=
  match o with
  | none => true
  | some x => x == ch

/-- grid.js canPlace, recursing over the word's characters; (r, c) is the
cell for the current character and advances by (dr, dc). -/
def canPlace (g : OGrid) : List Char → Int → Int → Int → Int → Bool
  | [], _, _, _, _ => true
  | ch :: rest, r, c, dr, dc =>
    decide (0 ≤ r) && decide (r < (g.length : Int)) &&
    decide (0 ≤ c) && decide (c < (g.length : Int)) &&
    cellFree (ogGet g r.toNat c.toNat) ch &&
    canPlace g rest (r + dr) (c + dc) dr dc

/-- grid.js placeWord (state-passing instead of in-place mutation). -/
def placeWord (g : OGrid) : List Char → Int → Int → Int → Int → OGrid
  | [], _, _, _, _ => g
  | ch :: rest, r, c, dr, dc =>
    placeWord (setCell g r.toNat c.toNat ch) rest (r + dr) (c + dc) dr dc

/-- grid.js placement descriptor. -/
structure Placement where
  word : String
  row : Nat
  col : Nat
  direction : String
  dr : Int
  dc : Int
  cells : List Cell
deriving DecidableEq, Repr

/-- The cells array built by tryPlaceWord. -/
def mkCells (row col : Nat) (dr dc : Int) (len : Nat) : List Cell :=
  (List.range len).map (fun (i : Nat) => ⟨(row : Int) + i * dr, (col : Int) + i * dc⟩)

/-- Randomness drawn for one word: the shuffled direction list and the
stream of (row, col) picks, one pair per attempt. -/
structure WordRand where
  dirs : List DirEntry
  pick : Nat → Nat × Nat

/-- What the source guarantees about the draws: shuffle permutes the 8
entries, and Math.floor(Math.random() * size) is below size. -/
def WordRand.Valid (size : Nat) (w : WordRand) : Prop :=
  w.dirs.Perm dirEntries ∧ ∀ t, (w.pick t).1 < size ∧ (w.pick t).2 < size

/-- Fallback entry for list indexing (never used when dirs is nonempty). -/
def defaultEntry : DirEntry := ⟨0, 1, "right"⟩

/-- The attempt loop of tryPlaceWord: t is the attempt index, the second
argument the attempts left. -/
def tryFrom (g : OGrid) (w : String) (dirs : List DirEntry)
    (pick : Nat → Nat × Nat) : Nat → Nat → Option (OGrid × Placement)
  | _, 0 => none
  | t, fuel + 1 =>
    let rc := pick t
    let e := dirs.getD (t % dirs.length) defaultEntry
    if canPlace g w.data rc.1 rc.2 e.dr e.dc then
      some (placeWord g w.data rc.1 rc.2 e.dr e.dc,
        ⟨w, rc.1, rc.2, e.name, e.dr, e.dc, mkCells rc.1 rc.2 e.dr e.dc w.data.length⟩)
    else tryFrom g w dirs pick (t + 1) fuel

/-- grid.js tryPlaceWord with its default budget of 200 attempts. -/
def tryPlaceWord (g : OGrid) (w : String) (wr : WordRand) :
    Option (OGrid × Placement) :=
  tryFrom g w wr.dirs wr.pick 0 200

/-- alphabets.js ALPHABETS with the ?? ALPHABETS.en fallback. -/
def ALPHABETS (lang : String) : String :=
  if lang = "en" then "abcdefghijklmnopqrstuvwxyz"
  else if lang = "ru" then "абвгдеёжзийклмнопрстуфхцчшщъыьэюя"
  else if lang = "be" then "абвгдеёжзійклмнопрстуўфхцчшыьэюя"
  else if lang = "uk" then "абвгґдеєжзиіїйклмнопрстуфхцчшщьюя"
  else "abcdefghijklmnopqrstuvwxyz"

/-- alphabets.js randomChar; idx models Math.floor(Math.random() * length). -/
def randomChar (lang : String) (idx : Nat) : Char :=
  (ALPHABETS lang).data.getD idx 'a'

/-- One row of the filler pass of generateGrid. -/
def fillRow (lang : String) (fill : Nat → Nat → Nat) (r : Nat) :
    Nat → List (Option Char) → List Char
  | _, [] => []
  | c, cell :: rest =>
    (match cell with
     | some ch => ch
     | none => randomChar lang (fill r c)) :: fillRow lang fill r (c + 1) rest

/-- The filler pass of generateGrid: replace unset cells by filler characters. -/
def fillRows (lang : String) (fill : Nat → Nat → Nat) :
    Nat → OGrid → List (List Char)
  | _, [] => []
  | r, row :: rest => fillRow lang fill r 0 row :: fillRows lang fill (r + 1) rest

/-- Stable insert for descending length, modelling the comparator
(a, b) => b.length - a.length of Array.prototype.sort. -/
def insertByLen (w : String) : List String → List String
  | [] => [w]
  | x :: xs => if x.length < w.length then w :: x :: xs else x :: insertByLen w xs

/-- The descending-length stable sort of generateGrid (on a copy). -/
def sortWords (ws : List String) : List String :=
  ws.foldl (fun acc w => insertByLen w acc) []

/-- generateGrid's return value. -/
structure GenResult where
  grid : List (List Char)
  placements : List Placement
  skipped : List String
deriving DecidableEq, Repr

/-- Math.floor(Math.sqrt(2) * gridSize): for natural n this equals
⌊√(2·n²)⌋, i.e. Nat.sqrt (2·n·n). -/
def maxLength (gridSize : Nat) : Nat := Nat.sqrt (2 * gridSize * gridSize)

/-- The word loop of generateGrid; k indexes the per-word randomness. -/
def genLoop (wr : Nat → WordRand) (gridSize : Nat) :
    List String → Nat → OGrid → List Placement → List String →
    OGrid × List Placement × List String
  | [], _, g, ps, sk => (g, ps, sk)
  | word :: rest, k, g, ps, sk =>
    let lower := jsToLower word
    if lower.length > maxLength gridSize then
      genLoop wr gridSize rest (k + 1) g ps (sk ++ [word])
    else
      match tryPlaceWord g lower (wr k) with
      | some gp => genLoop wr gridSize rest (k + 1) gp.1 (ps ++ [gp.2]) sk
      | none => genLoop wr gridSize rest (k + 1) g ps (sk ++ [word])

/-- grid.js generateGrid, parameterized by the randomness oracles. -/
def generateGrid (words : List String) (gridSize : Nat) (lang : String)
    (wr : Nat → WordRand) (fill : Nat → Nat → Nat) : GenResult :=
  let res := genLoop wr gridSize (sortWords words) 0 (createEmptyGrid gridSize) [] []
  ⟨fillRows lang fill 0 res.1, res.2.1, res.2.2⟩

/-- Constant randomness used for concrete runs: unshuffled directions,
always pick (0, 0), always filler index 0. -/
def constRand : WordRand := ⟨dirEntries, fun _ => (0, 0)⟩

/-- Per-word constant oracle. -/
def constWr : Nat → WordRand := fun _ => constRand

/-- Constant filler-index oracle. -/
def constFill : Nat → Nat → Nat := fun _ _ => 0

/-! ### Direction vocabulary and straight-line characterization -/

/-- The eight canonical unit vectors. -/
def unitVecs : List (Int × Int) := dirEntries.map (fun e => (e.dr, e.dc))

/-- A straight-line selection in the specification's sense: one canonical
unit vector is the per-step delta of every consecutive pair of cells. -/
def isUnitLine (cells : List Cell) : Prop :=
  ∃ d ∈ unitVecs, List.Chain' (fun a b => (b.row - a.row, b.col - a.col) = d) cells

instance (cells : List Cell) : Decidable (isUnitLine cells) :=
  inferInstanceAs (Decidable (∃ d ∈ unitVecs,
    List.Chain' (fun (a b : Cell) => (b.row - a.row, b.col - a.col) = d) cells))

theorem unitVecs_eq :
    unitVecs = [(0, 1), (0, -1), (1, 0), (-1, 0), (1, 1), (1, -1), (-1, 1), (-1, -1)] := by
  decide

theorem isUnitLine_nil : isUnitLine [] :=
  ⟨(0, 1), by rw [unitVecs_eq]; simp, by simp⟩

theorem isUnitLine_singleton (c : Cell) : isUnitLine [c] :=
  ⟨(0, 1), by rw [unitVecs_eq]; simp, by simp⟩

theorem sameDelta_iff (dr dc : Int) (p : Cell) (l : List Cell) :
    sameDelta dr dc p l = true ↔
      List.Chain' (fun a b => (b.row - a.row, b.col - a.col) = (dr, dc)) (p :: l) := by
  induction l generalizing p with
  | nil => simp [sameDelta]
  | cons c rest ih =>
    simp [sameDelta, List.chain'_cons, ih, Prod.mk.injEq]

theorem mem_unitVecs_iff (dr dc : Int) :
    (dr, dc) ∈ unitVecs ↔ (validatorDirName dr dc).isSome := by
  rw [unitVecs_eq]
  constructor
  · intro h
    have hall : ∀ d ∈ ([(0, 1), (0, -1), (1, 0), (-1, 0), (1, 1), (1, -1),
        (-1, 1), (-1, -1)] : List (Int × Int)),
        (validatorDirName d.1 d.2).isSome := by decide
    exact hall (dr, dc) h
  · intro h
    unfold validatorDirName at h
    split_ifs at h with h1 h2 h3 h4 h5 h6 h7 h8
    · obtain ⟨rfl, rfl⟩ := h1; decide
    · obtain ⟨rfl, rfl⟩ := h2; decide
    · obtain ⟨rfl, rfl⟩ := h3; decide
    · obtain ⟨rfl, rfl⟩ := h4; decide
    · obtain ⟨rfl, rfl⟩ := h5; decide
    · obtain ⟨rfl, rfl⟩ := h6; decide
    · obtain ⟨rfl, rfl⟩ := h7; decide
    · obtain ⟨rfl, rfl⟩ := h8; decide
    · simp at h

theorem getLineDirection_cons₂ (c0 c1 : Cell) (rest : List Cell) :
    getLineDirection (c0 :: c1 :: rest) =
      (if sameDelta (c1.row - c0.row) (c1.col - c0.col) c1 rest then
        match validatorDirName (c1.row - c0.row) (c1.col - c0.col) with
        | some nm => some ⟨c1.row - c0.row, c1.col - c0.col, some nm⟩
        | none => none
      else none) := rfl

theorem isUnitLine_of_getLineDirection {ds : List Cell} {ld : LineDir}
    (h : getLineDirection ds = some ld) : isUnitLine ds := by
  match ds with
  | [] => exact isUnitLine_nil
  | [c] => exact isUnitLine_singleton c
  | c0 :: c1 :: rest =>
    rw [getLineDirection_cons₂] at h
    by_cases hsd : sameDelta (c1.row - c0.row) (c1.col - c0.col) c1 rest = true
    · rw [if_pos hsd] at h
      cases hv : validatorDirName (c1.row - c0.row) (c1.col - c0.col) with
      | none => rw [hv] at h; cases h
      | some nm =>
        refine ⟨(c1.row - c0.row, c1.col - c0.col), ?_, ?_⟩
        · rw [mem_unitVecs_iff, hv]; rfl
        · rw [List.chain'_cons]
          exact ⟨rfl, (sameDelta_iff _ _ _ _).mp hsd⟩
    · rw [if_neg hsd] at h; cases h

theorem getLineDirection_isSome_of_isUnitLine {ds : List Cell}
    (h2 : 2 ≤ ds.length) (h : isUnitLine ds) : (getLineDirection ds).isSome := by
  match ds with
  | [] => simp at h2
  | [c] => simp at h2
  | c0 :: c1 :: rest =>
    obtain ⟨d, hd, hchain⟩ := h
    rw [List.chain'_cons] at hchain
    obtain ⟨h01, hch⟩ := hchain
    rw [← h01] at hch hd
    rw [getLineDirection_cons₂, if_pos ((sameDelta_iff _ _ _ _).mpr hch)]
    rw [mem_unitVecs_iff] at hd
    cases hv : validatorDirName (c1.row - c0.row) (c1.col - c0.col) with
    | none => rw [hv] at hd; simp at hd
    | some nm => simp

/-! ### Deduplication lemmas -/

theorem mem_cons_dedupeFrom {x : Cell} (prev : Cell) {l : List Cell} (h : x ∈ l) :
    x ∈ prev :: dedupeFrom prev l := by
  induction l generalizing prev with
  | nil => cases h
  | cons c rest ih =>
    rw [dedupeFrom]
    by_cases hc : c = prev
    · rw [if_pos hc]
      rcases List.mem_cons.mp h with rfl | hm
      · rw [← hc]; exact List.mem_cons_self _ _
      · rcases List.mem_cons.mp (ih c hm) with rfl | h2
        · rw [← hc]; exact List.mem_cons_self _ _
        · exact List.mem_cons_of_mem _ h2
    · rw [if_neg hc]
      rcases List.mem_cons.mp h with rfl | hm
      · exact List.mem_cons_of_mem _ (List.mem_cons_self _ _)
      · rcases List.mem_cons.mp (ih c hm) with rfl | h2
        · exact List.mem_cons_of_mem _ (List.mem_cons_self _ _)
        · exact List.mem_cons_of_mem _ (List.mem_cons_of_mem _ h2)

theorem mem_dedupe {x : Cell} {cells : List Cell} (h : x ∈ cells) :
    x ∈ dedupe cells := by
  cases cells with
  | nil => cases h
  | cons c rest =>
    rw [dedupe]
    rcases List.mem_cons.mp h with rfl | hm
    · exact List.mem_cons_self _ _
    · exact mem_cons_dedupeFrom c hm

theorem dedupeFrom_of_chain {p : Cell} {l : List Cell}
    (h : List.Chain' (fun a b => a ≠ b) (p :: l)) : dedupeFrom p l = l := by
  induction l generalizing p with
  | nil => rfl
  | cons c rest ih =>
    rw [List.chain'_cons] at h
    rw [dedupeFrom, if_neg (fun hcp => h.1 hcp.symm), ih h.2]

theorem dedupe_of_chain {cells : List Cell}
    (h : List.Chain' (fun a b => a ≠ b) cells) : dedupe cells = cells := by
  cases cells with
  | nil => rfl
  | cons c rest => rw [dedupe, dedupeFrom_of_chain h]

theorem dedupe_ne_nil {cells : List Cell} (h : cells ≠ []) : dedupe cells ≠ [] := by
  cases cells with
  | nil => exact absurd rfl h
  | cons c rest => rw [dedupe]; exact List.cons_ne_nil _ _

/-! ### normalizeSelection and checkSelection lemmas -/

theorem normalizeSelection_eq_none {cells : List Cell} (hne : cells ≠ [])
    (h : ¬ isUnitLine (dedupe cells)) : normalizeSelection cells = none := by
  rw [normalizeSelection, if_neg (by simpa [List.isEmpty_iff] using hne)]
  have h0 : ¬ (dedupe cells).length = 0 := by
    simpa [List.length_eq_zero] using dedupe_ne_nil hne
  rw [if_neg h0]
  have h1 : ¬ (dedupe cells).length = 1 := by
    intro h1
    obtain ⟨a, ha⟩ := List.length_eq_one.mp h1
    rw [ha] at h
    exact h (isUnitLine_singleton a)
  rw [if_neg h1]
  have h2 : ¬ (getLineDirection (dedupe cells)).isSome = true := by
    intro hs
    obtain ⟨ld, hld⟩ := Option.isSome_iff_exists.mp hs
    exact h (isUnitLine_of_getLineDirection hld)
  rw [if_neg h2]

theorem normalizeSelection_self {cells : List Cell} (hne : cells ≠ [])
    (hchain : List.Chain' (fun a b => a ≠ b) cells) (hline : isUnitLine cells) :
    normalizeSelection cells = some cells := by
  have hd := dedupe_of_chain hchain
  rw [normalizeSelection, if_neg (by simpa [List.isEmpty_iff] using hne), hd]
  have h0 : ¬ cells.length = 0 := by simpa [List.length_eq_zero] using hne
  rw [if_neg h0]
  by_cases h1 : cells.length = 1
  · rw [if_pos h1]
  · rw [if_neg h1]
    have h2 : 2 ≤ cells.length := by omega
    rw [if_pos (getLineDirection_isSome_of_isUnitLine h2 hline)]

theorem normalizeSelection_some_eq {cells norm : List Cell}
    (h : normalizeSelection cells = some norm) : norm = dedupe cells := by
  rw [normalizeSelection] at h
  split_ifs at h
  · exact (Option.some.inj h).symm
  · exact (Option.some.inj h).symm

theorem checkSelection_of_none {grid : List (List Char)} {cells : List Cell}
    {targets : List String} (h : normalizeSelection cells = none) :
    checkSelection grid cells targets = emptyResult := by
  rw [checkSelection, h]

theorem checkSelection_of_oob {grid : List (List Char)} {cells : List Cell}
    {targets : List String} {norm : List Cell}
    (h : normalizeSelection cells = some norm)
    (hb : ¬ norm.all (fun c => decide (inB grid.length c)) = true) :
    checkSelection grid cells targets = emptyResult := by
  rw [checkSelection, h]
  simp only [if_neg hb]

theorem checkSelection_forward {grid : List (List Char)} {cells : List Cell}
    {targets : List String} {norm : List Cell}
    (h : normalizeSelection cells = some norm)
    (hb : ∀ c ∈ norm, inB grid.length c)
    (hm : jsToLower (readStr grid norm) ∈ targets.map jsToLower) :
    checkSelection grid cells targets =
      ⟨true, true, some (jsToLower (readStr grid norm)), lineName norm,
       norm.head?, norm⟩ := by
  simp only [checkSelection, h]
  have hb2 : norm.all (fun c => decide (inB grid.length c)) = true := by
    rw [List.all_eq_true]
    intro c hc
    exact decide_eq_true (hb c hc)
  rw [if_pos hb2, if_pos (List.elem_iff.mpr hm)]
  rfl

theorem checkSelection_backward {grid : List (List Char)} {cells : List Cell}
    {targets : List String} {norm : List Cell}
    (h : normalizeSelection cells = some norm)
    (hb : ∀ c ∈ norm, inB grid.length c)
    (hm1 : jsToLower (readStr grid norm) ∉ targets.map jsToLower)
    (hm2 : jsToLower (jsReverse (readStr grid norm)) ∈ targets.map jsToLower) :
    checkSelection grid cells targets =
      ⟨true, true, some (jsToLower (jsReverse (readStr grid norm))),
       lineName norm.reverse, norm.reverse.head?, norm.reverse⟩ := by
  simp only [checkSelection, h]
  have hb2 : norm.all (fun c => decide (inB grid.length c)) = true := by
    rw [List.all_eq_true]
    intro c hc
    exact decide_eq_true (hb c hc)
  have hc1 : ¬ (targets.map jsToLower).contains (jsToLower (readStr grid norm)) = true := by
    intro hx
    exact hm1 (List.elem_iff.mp hx)
  rw [if_pos hb2, if_neg hc1, if_pos (List.elem_iff.mpr hm2)]
  rfl

theorem checkSelection_nomatch {grid : List (List Char)} {cells : List Cell}
    {targets : List String} {norm : List Cell}
    (h : normalizeSelection cells = some norm)
    (hb : ∀ c ∈ norm, inB grid.length c)
    (hm1 : jsToLower (readStr grid norm) ∉ targets.map jsToLower)
    (hm2 : jsToLower (jsReverse (readStr grid norm)) ∉ targets.map jsToLower) :
    checkSelection grid cells targets = ⟨true, false, none, none, none, norm⟩ := by
  simp only [checkSelection, h]
  have hb2 : norm.all (fun c => decide (inB grid.length c)) = true := by
    rw [List.all_eq_true]
    intro c hc
    exact decide_eq_true (hb c hc)
  have hc1 : ¬ (targets.map jsToLower).contains (jsToLower (readStr grid norm)) = true := by
    intro hx
    exact hm1 (List.elem_iff.mp hx)
  have hc2 : ¬ (targets.map jsToLower).contains
      (jsToLower (jsReverse (readStr grid norm))) = true := by
    intro hx
    exact hm2 (List.elem_iff.mp hx)
  rw [if_pos hb2, if_neg hc1, if_neg hc2]

/-! ### Claims C4, C5, C7, C8 -/

/-- C4: string-match semantics of checkSelection on a valid straight-line
selection: a forward match keeps the (normalized) cells in input order; a
reverse match returns the reversed reading-order cells with startCell and
direction computed from them; no match gives valid=true, found=false,
word=null.  Conjoined with the specification's concrete scenario: dragging
(0,2),(0,1),(0,0) over "cat" reports direction "right", not "left". -/
theorem claim_C4_checkSelection_match_semantics :
    (∀ (grid : List (List Char)) (cells : List Cell) (targets : List String)
        (norm : List Cell),
      normalizeSelection cells = some norm →
      (∀ c ∈ norm, inB grid.length c) →
      ((jsToLower (readStr grid norm) ∈ targets.map jsToLower →
          checkSelection grid cells targets =
            ⟨true, true, some (jsToLower (readStr grid norm)), lineName norm,
             norm.head?, norm⟩) ∧
        (jsToLower (readStr grid norm) ∉ targets.map jsToLower →
          jsToLower (jsReverse (readStr grid norm)) ∈ targets.map jsToLower →
          checkSelection grid cells targets =
            ⟨true, true, some (jsToLower (jsReverse (readStr grid norm))),
             lineName norm.reverse, norm.reverse.head?, norm.reverse⟩) ∧
        (jsToLower (readStr grid norm) ∉ targets.map jsToLower →
          jsToLower (jsReverse (readStr grid norm)) ∉ targets.map jsToLower →
          checkSelection grid cells targets =
            ⟨true, false, none, none, none, norm⟩))) ∧
    checkSelection [['c', 'a', 't'], ['x', 'x', 'x'], ['x', 'x', 'x']]
        [⟨0, 2⟩, ⟨0, 1⟩, ⟨0, 0⟩] ["cat"] =
      ⟨true, true, some "cat", some "right", some ⟨0, 0⟩,
       [⟨0, 0⟩, ⟨0, 1⟩, ⟨0, 2⟩]⟩ := by
  refine ⟨fun grid cells targets norm h hb => ⟨?_, ?_, ?_⟩, by decide⟩
  · exact fun hm => checkSelection_forward h hb hm
  · exact fun h1 h2 => checkSelection_backward h hb h1 h2
  · exact fun h1 h2 => checkSelection_nomatch h hb h1 h2

/-- Witness for C4: the forward-match branch applied at the
specification's concrete grid and selection. -/
theorem claim_C4_witness :
    checkSelection [['c', 'a', 't'], ['x', 'x', 'x'], ['x', 'x', 'x']]
        [⟨0, 0⟩, ⟨0, 1⟩, ⟨0, 2⟩] ["cat"] =
      ⟨true, true,
       some (jsToLower (readStr [['c', 'a', 't'], ['x', 'x', 'x'], ['x', 'x', 'x']]
         [⟨0, 0⟩, ⟨0, 1⟩, ⟨0, 2⟩])),
       lineName [⟨0, 0⟩, ⟨0, 1⟩, ⟨0, 2⟩],
       ([(⟨0, 0⟩ : Cell), ⟨0, 1⟩, ⟨0, 2⟩]).head?,
       [⟨0, 0⟩, ⟨0, 1⟩, ⟨0, 2⟩]⟩ :=
  (claim_C4_checkSelection_match_semantics.1 _ _ _ _ (by decide) (by decide)).1
    (by decide)

/-- C5 counterexample: the input [(0,0),(0,0),(0,1)] does not have a
constant per-step unit delta (so the claim as stated demands the EMPTY
result), yet checkSelection deduplicates the repeated cell and accepts
the selection as valid. -/
theorem claim_C5_counterexample :
    ¬ isUnitLine [⟨0, 0⟩, ⟨0, 0⟩, ⟨0, 1⟩] ∧
    checkSelection [['a', 'b'], ['c', 'd']] [⟨0, 0⟩, ⟨0, 0⟩, ⟨0, 1⟩] [] ≠
      emptyResult := by
  constructor
  · intro h
    obtain ⟨d, hd, hch⟩ := h
    rw [List.chain'_cons, List.chain'_cons] at hch
    obtain ⟨h1, h2, -⟩ := hch
    exact absurd (h1.trans h2.symm) (by decide)
  · decide

/-- C5 (amended): checkSelection is total, and for every input whose cell
list is empty, whose deduplicated cell list does not form a straight line
with a constant per-step delta equal to one of the 8 canonical unit
vectors, or which contains a cell outside [0, gridSize) on either axis,
it returns the well-formed EMPTY result. -/
theorem claim_C5_checkSelection_malformed (grid : List (List Char))
    (cells : List Cell) (targets : List String)
    (h : cells = [] ∨ ¬ isUnitLine (dedupe cells) ∨
      ∃ c ∈ cells, ¬ inB grid.length c) :
    checkSelection grid cells targets = emptyResult := by
  rcases h with rfl | h | ⟨c, hc, hcb⟩
  · exact checkSelection_of_none rfl
  · by_cases hne : cells = []
    · subst hne; exact checkSelection_of_none rfl
    · exact checkSelection_of_none (normalizeSelection_eq_none hne h)
  · cases hn : normalizeSelection cells with
    | none => exact checkSelection_of_none hn
    | some norm =>
      refine checkSelection_of_oob hn ?_
      intro hall
      rw [List.all_eq_true] at hall
      have hmem : c ∈ norm := by
        rw [normalizeSelection_some_eq hn]
        exact mem_dedupe hc
      exact hcb (of_decide_eq_true (hall c hmem))

/-- Witness for C5 (amended), at an out-of-bounds concrete selection. -/
theorem claim_C5_witness :
    checkSelection [['a', 'b'], ['c', 'd']] [⟨5, 5⟩] [] = emptyResult :=
  claim_C5_checkSelection_malformed _ _ _
    (Or.inr (Or.inr ⟨⟨5, 5⟩, by decide, by decide⟩))

/-- C7: isGameWon is true iff the target list is nonempty and every
target word appears case-insensitively among the found words; with the
specification's three concrete examples. -/
theorem claim_C7_isGameWon :
    (∀ foundWords targetWords : List String,
      isGameWon foundWords targetWords = true ↔
        (targetWords ≠ [] ∧
          ∀ w ∈ targetWords, jsToLower w ∈ foundWords.map jsToLower)) ∧
    isGameWon [] [] = false ∧
    isGameWon ["cat"] ["cat"] = true ∧
    isGameWon ["cat"] ["CAT", "dog"] = false := by
  refine ⟨fun f t => ?_, rfl, rfl, rfl⟩
  cases t with
  | nil => simp [isGameWon]
  | cons a t2 => simp [isGameWon, List.all_eq_true, List.elem_iff]

/-- Witness for C7: the general equivalence instantiated at the concrete
mixed-case example. -/
theorem claim_C7_witness :
    isGameWon ["cat"] ["CAT", "dog"] = true ↔
      ((["CAT", "dog"] : List String) ≠ [] ∧
        ∀ w ∈ (["CAT", "dog"] : List String),
          jsToLower w ∈ (["cat"] : List String).map jsToLower) :=
  claim_C7_isGameWon.1 ["cat"] ["CAT", "dog"]

/-- C8: checkSelection is deterministic and effect-free: in this pure
embedding, two calls with identical grid, cells and targetWords yield
identical results; the grid and target list are immutable values, so no
call can modify them. -/
theorem claim_C8_checkSelection_deterministic
    (grid : List (List Char)) (cells : List Cell) (targets : List String)
    (r1 r2 : SelectionResult)
    (h1 : r1 = checkSelection grid cells targets)
    (h2 : r2 = checkSelection grid cells targets) : r1 = r2 :=
  h1.trans h2.symm

/-- Witness for C8 at a concrete input. -/
theorem claim_C8_witness :
    checkSelection [['c', 'a', 't']] [⟨0, 0⟩] ["cat"] =
      checkSelection [['c', 'a', 't']] [⟨0, 0⟩] ["cat"] :=
  claim_C8_checkSelection_deterministic _ _ _ _ _ rfl rfl

/-! ### Generator-side helpers -/

/-- The i-th cell of the line starting at (row, col) with step (dr, dc). -/
def cellAt (row col : Nat) (dr dc : Int) (i : Nat) : Cell :=
  ⟨(row : Int) + i * dr, (col : Int) + i * dc⟩

theorem mkCells_eq_map (row col : Nat) (dr dc : Int) (len : Nat) :
    mkCells row col dr dc len = (List.range len).map (cellAt row col dr dc) := by
  unfold mkCells cellAt
  rfl

/-- Square generation grid of the given size. -/
def GridWF (size : Nat) (g : OGrid) : Prop :=
  g.length = size ∧ ∀ row ∈ g, row.length = size

theorem toLower_idem (c : Char) : c.toLower.toLower = c.toLower := by
  by_cases h : c.toNat ≥ 65 ∧ c.toNat ≤ 90
  · have h1 : c.toLower = Char.ofNat (c.toNat + 32) := by
      unfold Char.toLower
      rw [if_pos h]
    have hv : (Char.ofNat (c.toNat + 32)).toNat = c.toNat + 32 := by
      unfold Char.ofNat
      rw [dif_pos (Or.inl (by omega))]
      rfl
    rw [h1]
    unfold Char.toLower
    rw [if_neg]
    intro hc
    rw [hv] at hc
    omega
  · have h1 : c.toLower = c := by
      unfold Char.toLower
      rw [if_neg h]
    rw [h1, h1]

theorem stringMk_data (s : String) : String.mk s.data = s := rfl

theorem jsToLower_idem (s : String) : jsToLower (jsToLower s) = jsToLower s := by
  unfold jsToLower
  simp only [List.map_map]
  congr 1
  apply List.map_congr_left
  intro c _
  exact toLower_idem c

theorem getD_map_range (l : List Char) (d : Char) :
    (List.range l.length).map (fun i => l.getD i d) = l := by
  apply List.ext_getElem
  · simp
  · intro i h1 h2
    simp only [List.getElem_map, List.getElem_range, List.getD_eq_getElem?_getD,
      List.getElem?_eq_getElem h2]
    rfl

theorem step_shift (r dr : Int) (j : Nat) :
    r + ((j + 1 : Nat) : Int) * dr = (r + dr) + (j : Int) * dr := by
  push_cast
  ring

theorem cellFree_iff (o : Option Char) (ch : Char) :
    cellFree o ch = true ↔ (o = none ∨ o = some ch) := by
  cases o <;> simp [cellFree]

theorem getD_set_eq {α : Type} (l : List α) (i : Nat) (x d : α) (h : i < l.length) :
    (l.set i x).getD i d = x := by
  rw [List.getD_eq_getElem?_getD, List.getElem?_set_self (by simpa using h)]
  rfl

theorem getD_set_ne {α : Type} (l : List α) (i j : Nat) (x d : α) (h : i ≠ j) :
    (l.set i x).getD j d = l.getD j d := by
  rw [List.getD_eq_getElem?_getD, List.getElem?_set_ne h, ← List.getD_eq_getElem?_getD]

/-! ### setCell and ogGet lemmas -/

theorem length_setCell (g : OGrid) (r c : Nat) (ch : Char) :
    (setCell g r c ch).length = g.length := by
  unfold setCell
  exact List.length_set g r _

theorem gridWF_setCell {size : Nat} {g : OGrid} (h : GridWF size g)
    (r c : Nat) (ch : Char) : GridWF size (setCell g r c ch) := by
  refine ⟨by rw [length_setCell, h.1], ?_⟩
  intro row hrow
  unfold setCell at hrow
  by_cases hr : r < g.length
  · rcases List.mem_or_eq_of_mem_set hrow with hm | rfl
    · exact h.2 row hm
    · rw [List.length_set]
      have hmem : g.getD r [] ∈ g := by
        rw [List.getD_eq_getElem?_getD, List.getElem?_eq_getElem hr]
        exact List.getElem_mem hr
      exact h.2 _ hmem
  · rw [List.set_eq_of_length_le (by omega)] at hrow
    exact h.2 _ hrow

theorem ogGet_setCell_ne {g : OGrid} {r c R C : Nat} (ch : Char)
    (h : (R, C) ≠ (r, c)) :
    ogGet (setCell g r c ch) R C = ogGet g R C := by
  unfold ogGet setCell
  by_cases hR : R = r
  · subst hR
    have hC : c ≠ C := by
      intro hc
      exact h (by rw [hc])
    by_cases hr : R < g.length
    · rw [getD_set_eq g R _ [] hr, getD_set_ne _ c C _ none hC]
    · rw [List.set_eq_of_length_le (by omega)]
  · have hne : r ≠ R := fun hx => hR hx.symm
    rw [getD_set_ne g r R _ [] hne]

theorem ogGet_setCell_self {g : OGrid} {r c : Nat} (ch : Char)
    (hr : r < g.length) (hc : c < (g.getD r []).length) :
    ogGet (setCell g r c ch) r c = some ch := by
  unfold ogGet setCell
  rw [getD_set_eq g r _ [] hr, getD_set_eq _ c _ none hc]

/-! ### canPlace and placeWord characterization -/

theorem canPlace_iff (g : OGrid) (w : List Char) (r c dr dc : Int) :
    canPlace g w r c dr dc = true ↔
      ∀ i < w.length,
        (0 ≤ r + (i : Int) * dr ∧ r + (i : Int) * dr < (g.length : Int) ∧
         0 ≤ c + (i : Int) * dc ∧ c + (i : Int) * dc < (g.length : Int)) ∧
        (ogGet g (r + (i : Int) * dr).toNat (c + (i : Int) * dc).toNat = none ∨
         ogGet g (r + (i : Int) * dr).toNat (c + (i : Int) * dc).toNat =
           some (w.getD i 'a')) := by
  induction w generalizing r c with
  | nil => simp [canPlace]
  | cons ch rest ih =>
    simp only [canPlace, Bool.and_eq_true, decide_eq_true_eq, cellFree_iff, ih]
    constructor
    · intro hh i hi
      obtain ⟨hh, hrec⟩ := hh
      obtain ⟨hh, hfree⟩ := hh
      obtain ⟨hh, hc2⟩ := hh
      obtain ⟨hh, hc1⟩ := hh
      obtain ⟨hr1, hr2⟩ := hh
      cases i with
      | zero =>
        simp only [Nat.cast_zero, zero_mul, add_zero, List.getD_cons_zero]
        exact ⟨⟨hr1, hr2, hc1, hc2⟩, hfree⟩
      | succ j =>
        have hj : j < rest.length := by
          simpa using Nat.lt_of_succ_lt_succ hi
        have hx := hrec j hj
        rw [step_shift r dr j, step_shift c dc j, List.getD_cons_succ]
        exact hx
    · intro h
      have h0 := h 0 (Nat.succ_pos _)
      simp only [Nat.cast_zero, zero_mul, add_zero, List.getD_cons_zero] at h0
      refine ⟨?_, ?_⟩
      · refine ⟨?_, h0.2⟩
        refine ⟨?_, h0.1.2.2.2⟩
        refine ⟨?_, h0.1.2.2.1⟩
        exact ⟨h0.1.1, h0.1.2.1⟩
      · intro j hj
        have hx := h (j + 1) (by simpa using Nat.succ_lt_succ hj)
        rw [step_shift r dr j, step_shift c dc j, List.getD_cons_succ] at hx
        exact hx

theorem placeWord_length (g : OGrid) (w : List Char) (r c dr dc : Int) :
    (placeWord g w r c dr dc).length = g.length := by
  induction w generalizing g r c with
  | nil => rfl
  | cons ch rest ih =>
    simp only [placeWord]
    rw [ih, length_setCell]

theorem gridWF_placeWord {size : Nat} (w : List Char) :
    ∀ (g : OGrid) (r c dr dc : Int), GridWF size g →
      GridWF size (placeWord g w r c dr dc) := by
  induction w with
  | nil => intro g r c dr dc h; exact h
  | cons ch rest ih =>
    intro g r c dr dc h
    simp only [placeWord]
    exact ih _ _ _ _ _ (gridWF_setCell h _ _ _)

theorem placeWord_get_off (w : List Char) :
    ∀ (g : OGrid) (r c dr dc : Int) (R C : Nat),
      (∀ i < w.length,
        ((r + (i : Int) * dr).toNat, (c + (i : Int) * dc).toNat) ≠ (R, C)) →
      ogGet (placeWord g w r c dr dc) R C = ogGet g R C := by
  induction w with
  | nil => intro g r c dr dc R C _; rfl
  | cons ch rest ih =>
    intro g r c dr dc R C hoff
    simp only [placeWord]
    have hrest : ∀ i < rest.length,
        (((r + dr) + (i : Int) * dr).toNat, ((c + dc) + (i : Int) * dc).toNat) ≠
          (R, C) := by
      intro j hj
      have := hoff (j + 1) (by simpa using Nat.succ_lt_succ hj)
      rw [step_shift r dr j, step_shift c dc j] at this
      exact this
    rw [ih (setCell g r.toNat c.toNat ch) (r + dr) (c + dc) dr dc R C hrest]
    refine ogGet_setCell_ne ch ?_
    have h0 := hoff 0 (Nat.succ_pos _)
    simp only [Nat.cast_zero, zero_mul, add_zero] at h0
    exact fun hx => h0 hx.symm

theorem line_pos_ne {r c dr dc : Int} (hdir : (dr, dc) ≠ (0, 0)) {i j : Nat}
    (hne : i ≠ j)
    (hi : 0 ≤ r + (i : Int) * dr ∧ 0 ≤ c + (i : Int) * dc)
    (hj : 0 ≤ r + (j : Int) * dr ∧ 0 ≤ c + (j : Int) * dc) :
    ((r + (i : Int) * dr).toNat, (c + (i : Int) * dc).toNat) ≠
      ((r + (j : Int) * dr).toNat, (c + (j : Int) * dc).toNat) := by
  intro h
  rw [Prod.mk.injEq] at h
  obtain ⟨h1, h2⟩ := h
  have e1 : r + (i : Int) * dr = r + (j : Int) * dr := by
    rw [← Int.toNat_of_nonneg hi.1, ← Int.toNat_of_nonneg hj.1, h1]
  have e2 : c + (i : Int) * dc = c + (j : Int) * dc := by
    rw [← Int.toNat_of_nonneg hi.2, ← Int.toNat_of_nonneg hj.2, h2]
  have m1 := add_left_cancel e1
  have m2 := add_left_cancel e2
  by_cases hdr : dr = 0
  · have hdc : dc ≠ 0 := by
      intro h0
      exact hdir (by rw [hdr, h0])
    have : (i : Int) = (j : Int) := mul_right_cancel₀ hdc m2
    exact hne (by exact_mod_cast this)
  · have : (i : Int) = (j : Int) := mul_right_cancel₀ hdr m1
    exact hne (by exact_mod_cast this)

theorem ogGet_setCell_cases {g : OGrid} {r c R C : Nat} {ch x : Char}
    (h : ogGet (setCell g r c ch) R C = some x) :
    ogGet g R C = some x ∨ ((R, C) = (r, c) ∧ x = ch) := by
  by_cases heq : (R, C) = (r, c)
  · rw [Prod.mk.injEq] at heq
    obtain ⟨rfl, rfl⟩ := heq
    by_cases hr : R < g.length
    · by_cases hc : C < (g.getD R []).length
      · rw [ogGet_setCell_self ch hr hc] at h
        exact Or.inr ⟨rfl, (Option.some.inj h).symm⟩
      · left
        unfold ogGet setCell at h
        rw [List.set_eq_of_length_le (l := List.getD g R []) (by omega)] at h
        rw [getD_set_eq g R _ [] hr] at h
        unfold ogGet
        exact h
    · left
      unfold setCell at h
      rw [List.set_eq_of_length_le (by omega)] at h
      exact h
  · left
    rw [ogGet_setCell_ne ch heq] at h
    exact h

theorem placeWord_get_on {size : Nat} (w : List Char) :
    ∀ (g : OGrid) (r c dr dc : Int), GridWF size g → (dr, dc) ≠ (0, 0) →
      (∀ i < w.length,
        0 ≤ r + (i : Int) * dr ∧ r + (i : Int) * dr < (size : Int) ∧
        0 ≤ c + (i : Int) * dc ∧ c + (i : Int) * dc < (size : Int)) →
      ∀ i < w.length,
        ogGet (placeWord g w r c dr dc)
            (r + (i : Int) * dr).toNat (c + (i : Int) * dc).toNat =
          some (w.getD i 'a') := by
  induction w with
  | nil =>
    intro g r c dr dc _ _ _ i hi
    simp at hi
  | cons ch rest ih =>
    intro g r c dr dc hwf hdir hb i hi
    simp only [placeWord]
    cases i with
    | zero =>
      have hb0 := hb 0 (Nat.succ_pos _)
      simp only [Nat.cast_zero, zero_mul, add_zero] at hb0 ⊢
      have hoff : ∀ j < rest.length,
          (((r + dr) + (j : Int) * dr).toNat, ((c + dc) + (j : Int) * dc).toNat) ≠
            (r.toNat, c.toNat) := by
        intro j hj
        have hbj := hb (j + 1) (by simpa using Nat.succ_lt_succ hj)
        have hx := line_pos_ne (r := r) (c := c) hdir
          (i := j + 1) (j := 0) (by omega) ⟨hbj.1, hbj.2.2.1⟩
          ⟨by simpa using hb0.1, by simpa using hb0.2.2.1⟩
        rw [step_shift r dr j, step_shift c dc j] at hx
        simpa using hx
      rw [placeWord_get_off rest _ _ _ _ _ _ _ hoff]
      rw [List.getD_cons_zero]
      refine ogGet_setCell_self ch ?_ ?_
      · rw [hwf.1]
        omega
      · have hr : r.toNat < g.length := by
          rw [hwf.1]
          omega
        have hrow : (g.getD r.toNat []).length = size := by
          have hmem : g.getD r.toNat [] ∈ g := by
            rw [List.getD_eq_getElem?_getD, List.getElem?_eq_getElem hr]
            exact List.getElem_mem hr
          exact hwf.2 _ hmem
        rw [hrow]
        omega
    | succ j =>
      have hj : j < rest.length := by simpa using Nat.lt_of_succ_lt_succ hi
      have hbs : ∀ m < rest.length,
          0 ≤ (r + dr) + (m : Int) * dr ∧ (r + dr) + (m : Int) * dr < (size : Int) ∧
          0 ≤ (c + dc) + (m : Int) * dc ∧ (c + dc) + (m : Int) * dc < (size : Int) := by
        intro m hm
        have := hb (m + 1) (by simpa using Nat.succ_lt_succ hm)
        rw [step_shift r dr m, step_shift c dc m] at this
        exact this
      have hres := ih (setCell g r.toNat c.toNat ch) (r + dr) (c + dc) dr dc
        (gridWF_setCell hwf _ _ _) hdir hbs j hj
      rw [step_shift r dr j, step_shift c dc j, List.getD_cons_succ]
      exact hres

theorem placeWord_preserve {size : Nat} {g : OGrid} {w : List Char}
    {r c dr dc : Int} {R C : Nat} {x : Char}
    (hwf : GridWF size g) (hdir : (dr, dc) ≠ (0, 0))
    (hcan : canPlace g w r c dr dc = true)
    (hx : ogGet g R C = some x) :
    ogGet (placeWord g w r c dr dc) R C = some x := by
  have hspec := (canPlace_iff g w r c dr dc).mp hcan
  by_cases hpos : ∃ i, i < w.length ∧
      ((r + (i : Int) * dr).toNat, (c + (i : Int) * dc).toNat) = (R, C)
  · obtain ⟨i, hi, hpi⟩ := hpos
    rw [Prod.mk.injEq] at hpi
    obtain ⟨hir, hic⟩ := hpi
    have hcontent := (hspec i hi).2
    rw [hir, hic] at hcontent
    have hx2 : x = w.getD i 'a' := by
      rcases hcontent with h0 | h0
      · rw [hx] at h0
        cases h0
      · rw [hx] at h0
        exact Option.some.inj h0
    have hb : ∀ m < w.length,
        0 ≤ r + (m : Int) * dr ∧ r + (m : Int) * dr < (size : Int) ∧
        0 ≤ c + (m : Int) * dc ∧ c + (m : Int) * dc < (size : Int) := by
      intro m hm
      have := (hspec m hm).1
      rw [hwf.1] at this
      exact this
    have hon := placeWord_get_on w g r c dr dc hwf hdir hb i hi
    rw [hir, hic] at hon
    rw [hon, hx2]
  · push_neg at hpos
    rw [placeWord_get_off w g r c dr dc R C (fun i hi => hpos i hi)]
    exact hx

theorem placeWord_covered (w : List Char) :
    ∀ (g : OGrid) (r c dr dc : Int) (R C : Nat) (x : Char),
      ogGet (placeWord g w r c dr dc) R C = some x →
      ogGet g R C = some x ∨
        ∃ i, i < w.length ∧
          ((r + (i : Int) * dr).toNat, (c + (i : Int) * dc).toNat) = (R, C) ∧
          w.getD i 'a' = x := by
  induction w with
  | nil =>
    intro g r c dr dc R C x h
    exact Or.inl h
  | cons ch rest ih =>
    intro g r c dr dc R C x h
    simp only [placeWord] at h
    rcases ih _ _ _ _ _ _ _ _ h with h1 | ⟨j, hj, hpos, hch⟩
    · rcases ogGet_setCell_cases h1 with h2 | ⟨hpc, hxc⟩
      · exact Or.inl h2
      · right
        refine ⟨0, Nat.succ_pos _, ?_, ?_⟩
        · simpa using hpc.symm
        · rw [List.getD_cons_zero]
          exact hxc.symm
    · right
      refine ⟨j + 1, by simpa using Nat.succ_lt_succ hj, ?_, ?_⟩
      · rw [step_shift r dr j, step_shift c dc j]
        exact hpos
      · rw [List.getD_cons_succ]
        exact hch

/-! ### tryPlaceWord and direction-table lemmas -/

/-- The name of the opposite direction. -/
def revName (n : String) : String :=
  if n = "right" then "left"
  else if n = "left" then "right"
  else if n = "down" then "up"
  else if n = "up" then "down"
  else if n = "down-right" then "up-left"
  else if n = "up-left" then "down-right"
  else if n = "down-left" then "up-right"
  else if n = "up-right" then "down-left"
  else n

theorem dirEntries_cases {e : DirEntry} (he : e ∈ dirEntries) :
    validatorDirName e.dr e.dc = some e.name ∧ (e.dr, e.dc) ≠ (0, 0) ∧
    validatorDirName (-e.dr) (-e.dc) = some (revName e.name) ∧
    (e.dr, e.dc) ∈ unitVecs ∧ (-e.dr, -e.dc) ∈ unitVecs := by
  have hall : ∀ x ∈ dirEntries,
      validatorDirName x.dr x.dc = some x.name ∧ (x.dr, x.dc) ≠ (0, 0) ∧
      validatorDirName (-x.dr) (-x.dc) = some (revName x.name) ∧
      (x.dr, x.dc) ∈ unitVecs ∧ (-x.dr, -x.dc) ∈ unitVecs := by decide
  exact hall e he

theorem getD_mem {l : List DirEntry} (h : l ≠ []) (n : Nat) :
    l.getD (n % l.length) defaultEntry ∈ l := by
  have hlen : 0 < l.length := List.length_pos.mpr h
  have hidx : n % l.length < l.length := Nat.mod_lt _ hlen
  rw [List.getD_eq_getElem?_getD, List.getElem?_eq_getElem hidx]
  exact List.getElem_mem hidx

theorem tryFrom_some {g : OGrid} {w : String} {dirs : List DirEntry}
    {pick : Nat → Nat × Nat} :
    ∀ {t fuel : Nat} {g2 : OGrid} {p : Placement},
      tryFrom g w dirs pick t fuel = some (g2, p) →
      ∃ (t2 : Nat) (e : DirEntry),
        e = dirs.getD (t2 % dirs.length) defaultEntry ∧
        canPlace g w.data ((pick t2).1 : Int) ((pick t2).2 : Int) e.dr e.dc = true ∧
        g2 = placeWord g w.data ((pick t2).1 : Int) ((pick t2).2 : Int) e.dr e.dc ∧
        p = ⟨w, (pick t2).1, (pick t2).2, e.name, e.dr, e.dc,
             mkCells (pick t2).1 (pick t2).2 e.dr e.dc w.data.length⟩ := by
  intro t fuel
  induction fuel generalizing t with
  | zero =>
    intro g2 p h
    cases h
  | succ fuel ih =>
    intro g2 p h
    simp only [tryFrom] at h
    by_cases hcp : canPlace g w.data ((pick t).1 : Int) ((pick t).2 : Int)
        (dirs.getD (t % dirs.length) defaultEntry).dr
        (dirs.getD (t % dirs.length) defaultEntry).dc = true
    · rw [if_pos hcp] at h
      obtain ⟨hg, hp⟩ := Prod.mk.injEq .. ▸ Option.some.inj h
      exact ⟨t, dirs.getD (t % dirs.length) defaultEntry, rfl, hcp, hg.symm, hp.symm⟩
    · rw [if_neg hcp] at h
      exact ih h

theorem tryFrom_none {g : OGrid} {w : String} {dirs : List DirEntry}
    {pick : Nat → Nat × Nat} (hne : dirs ≠ [])
    (hfail : ∀ (t : Nat) (e : DirEntry), e ∈ dirs →
      canPlace g w.data ((pick t).1 : Int) ((pick t).2 : Int) e.dr e.dc = false) :
    ∀ (t fuel : Nat), tryFrom g w dirs pick t fuel = none := by
  intro t fuel
  induction fuel generalizing t with
  | zero => rfl
  | succ fuel ih =>
    have hc := hfail t (dirs.getD (t % dirs.length) defaultEntry) (getD_mem hne t)
    simp only [tryFrom, hc, Bool.false_eq_true, if_false]
    exact ih (t + 1)

/-! ### The generation invariant -/

/-- Everything recorded about one committed placement, relative to the
current generation grid of the given size. -/
structure PGood (size : Nat) (g : OGrid) (p : Placement) : Prop where
  dirMem : (⟨p.dr, p.dc, p.direction⟩ : DirEntry) ∈ dirEntries
  cellsEq : p.cells = mkCells p.row p.col p.dr p.dc p.word.data.length
  inBnds : ∀ i < p.word.data.length,
    0 ≤ (p.row : Int) + (i : Int) * p.dr ∧
    (p.row : Int) + (i : Int) * p.dr < (size : Int) ∧
    0 ≤ (p.col : Int) + (i : Int) * p.dc ∧
    (p.col : Int) + (i : Int) * p.dc < (size : Int)
  chars : ∀ i < p.word.data.length,
    ogGet g ((p.row : Int) + (i : Int) * p.dr).toNat
      ((p.col : Int) + (i : Int) * p.dc).toNat = some (p.word.data.getD i 'a')
  lowered : jsToLower p.word = p.word
  lenLe : p.word.data.length ≤ maxLength size

/-- Loop invariant of generateGrid: the grid is square, every committed
placement reads back correctly, and every set cell is owned by some
placement. -/
structure GenInv (size : Nat) (g : OGrid) (ps : List Placement) : Prop where
  wf : GridWF size g
  good : ∀ p ∈ ps, PGood size g p
  covered : ∀ (R C : Nat) (x : Char), ogGet g R C = some x →
    ∃ p ∈ ps, ∃ i, i < p.word.data.length ∧
      (((p.row : Int) + (i : Int) * p.dr).toNat,
       ((p.col : Int) + (i : Int) * p.dc).toNat) = (R, C) ∧
      p.word.data.getD i 'a' = x

theorem inv_step {size : Nat} {g g2 : OGrid} {ps : List Placement} {w : String}
    {wrk : WordRand} {p : Placement}
    (hinv : GenInv size g ps)
    (hlow : jsToLower w = w)
    (hlen : w.data.length ≤ maxLength size)
    (hdirs : ∀ e ∈ wrk.dirs, e ∈ dirEntries) (hne : wrk.dirs ≠ [])
    (h : tryPlaceWord g w wrk = some (g2, p)) :
    GenInv size g2 (ps ++ [p]) := by
  obtain ⟨t2, e, heq, hcp, hg2, hp⟩ := tryFrom_some h
  have heMem : e ∈ dirEntries := hdirs _ (heq ▸ getD_mem hne t2)
  obtain ⟨-, hdne, -, -, -⟩ := dirEntries_cases heMem
  have hspec := (canPlace_iff g w.data ((wrk.pick t2).1 : Int)
    ((wrk.pick t2).2 : Int) e.dr e.dc).mp hcp
  have hb : ∀ m < w.data.length,
      0 ≤ ((wrk.pick t2).1 : Int) + (m : Int) * e.dr ∧
      ((wrk.pick t2).1 : Int) + (m : Int) * e.dr < (size : Int) ∧
      0 ≤ ((wrk.pick t2).2 : Int) + (m : Int) * e.dc ∧
      ((wrk.pick t2).2 : Int) + (m : Int) * e.dc < (size : Int) := by
    intro m hm
    have := (hspec m hm).1
    rw [hinv.wf.1] at this
    exact this
  subst hg2
  subst hp
  refine ⟨gridWF_placeWord _ _ _ _ _ _ hinv.wf, ?_, ?_⟩
  · intro q hq
    rcases List.mem_append.mp hq with hmem | hnew
    · obtain ⟨d1, d2, d3, d4, d5, d6⟩ := hinv.good q hmem
      exact ⟨d1, d2, d3, fun i hi => placeWord_preserve hinv.wf hdne hcp (d4 i hi),
        d5, d6⟩
    · rw [List.mem_singleton.mp hnew]
      refine ⟨heMem, rfl, hb, ?_, hlow, hlen⟩
      exact placeWord_get_on w.data g _ _ e.dr e.dc hinv.wf hdne hb
  · intro R C x hx
    rcases placeWord_covered w.data g _ _ e.dr e.dc R C x hx with hold | ⟨i, hi, hpos, hch⟩
    · obtain ⟨q, hqm, i, hi, hpos, hch⟩ := hinv.covered R C x hold
      exact ⟨q, List.mem_append_left _ hqm, i, hi, hpos, hch⟩
    · exact ⟨_, List.mem_append_right _ (List.mem_singleton_self _), i, hi, hpos, hch⟩

theorem getD_replicate {α : Type} (n i : Nat) (a d : α) :
    (List.replicate n a).getD i d = if i < n then a else d := by
  rw [List.getD_eq_getElem?_getD, List.getElem?_replicate]
  by_cases h : i < n
  · rw [if_pos h, if_pos h]
    rfl
  · rw [if_neg h, if_neg h]
    rfl

theorem ogGet_empty (size R C : Nat) : ogGet (createEmptyGrid size) R C = none := by
  unfold ogGet createEmptyGrid
  rw [getD_replicate]
  by_cases hR : R < size
  · rw [if_pos hR, getD_replicate, ite_self]
  · rw [if_neg hR]
    rfl

theorem genInv_empty (size : Nat) : GenInv size (createEmptyGrid size) [] := by
  refine ⟨⟨List.length_replicate _ _, ?_⟩, ?_, ?_⟩
  · intro row hrow
    rw [List.eq_of_mem_replicate hrow]
    exact List.length_replicate _ _
  · intro p hp
    cases hp
  · intro R C x hx
    rw [ogGet_empty] at hx
    cases hx

theorem valid_dirs_mem {size : Nat} {w : WordRand} (h : w.Valid size) :
    ∀ e ∈ w.dirs, e ∈ dirEntries :=
  fun _ he => (h.1.mem_iff).mp he

theorem valid_dirs_ne {size : Nat} {w : WordRand} (h : w.Valid size) :
    w.dirs ≠ [] := by
  intro h0
  have hl := h.1.length_eq
  rw [h0] at hl
  simp [dirEntries] at hl

theorem genLoop_inv {size : Nat} (wr : Nat → WordRand)
    (hwr : ∀ k, ∀ e ∈ (wr k).dirs, e ∈ dirEntries)
    (hwr2 : ∀ k, (wr k).dirs ≠ []) :
    ∀ (ws : List String) (k : Nat) (g : OGrid) (ps : List Placement)
      (sk : List String), GenInv size g ps →
      GenInv size (genLoop wr size ws k g ps sk).1
        (genLoop wr size ws k g ps sk).2.1 := by
  intro ws
  induction ws with
  | nil =>
    intro k g ps sk h
    exact h
  | cons word rest ih =>
    intro k g ps sk h
    simp only [genLoop]
    by_cases hg : maxLength size < (jsToLower word).length
    · rw [if_pos hg]
      exact ih _ _ _ _ h
    · rw [if_neg hg]
      cases htp : tryPlaceWord g (jsToLower word) (wr k) with
      | none =>
        simp only [htp]
        exact ih _ _ _ _ h
      | some gp =>
        simp only [htp]
        exact ih _ _ _ _
          (inv_step h (jsToLower_idem word) (Nat.le_of_not_lt hg) (hwr k) (hwr2 k) htp)

/-! ### Bookkeeping inductions over the word loop -/

theorem genLoop_counts (wr : Nat → WordRand) (size : Nat) :
    ∀ (ws : List String) (k : Nat) (g : OGrid) (ps : List Placement)
      (sk : List String),
      (genLoop wr size ws k g ps sk).2.1.length +
        (genLoop wr size ws k g ps sk).2.2.length =
      ps.length + sk.length + ws.length := by
  intro ws
  induction ws with
  | nil =>
    intro k g ps sk
    simp [genLoop]
  | cons word rest ih =>
    intro k g ps sk
    simp only [genLoop]
    by_cases hg : maxLength size < (jsToLower word).length
    · rw [if_pos hg]
      rw [ih]
      simp only [List.length_append, List.length_cons, List.length_nil]
      omega
    · rw [if_neg hg]
      cases htp : tryPlaceWord g (jsToLower word) (wr k) with
      | none =>
        simp only [htp]
        rw [ih]
        simp only [List.length_append, List.length_cons, List.length_nil]
        omega
      | some gp =>
        simp only [htp]
        rw [ih]
        simp only [List.length_append, List.length_cons, List.length_nil]
        omega

theorem genLoop_skipped_suffix (wr : Nat → WordRand) (size : Nat) :
    ∀ (ws : List String) (k : Nat) (g : OGrid) (ps : List Placement)
      (sk : List String),
      ∃ t, (genLoop wr size ws k g ps sk).2.2 = sk ++ t ∧ t.Sublist ws := by
  intro ws
  induction ws with
  | nil =>
    intro k g ps sk
    exact ⟨[], (List.append_nil sk).symm, List.nil_sublist []⟩
  | cons word rest ih =>
    intro k g ps sk
    simp only [genLoop]
    by_cases hg : maxLength size < (jsToLower word).length
    · rw [if_pos hg]
      obtain ⟨t, heq, hsub⟩ := ih (k + 1) g ps (sk ++ [word])
      refine ⟨word :: t, ?_, hsub.cons₂ word⟩
      rw [heq, List.append_assoc, List.singleton_append]
    · rw [if_neg hg]
      cases htp : tryPlaceWord g (jsToLower word) (wr k) with
      | none =>
        simp only [htp]
        obtain ⟨t, heq, hsub⟩ := ih (k + 1) g ps (sk ++ [word])
        refine ⟨word :: t, ?_, hsub.cons₂ word⟩
        rw [heq, List.append_assoc, List.singleton_append]
      | some gp =>
        simp only [htp]
        obtain ⟨t, heq, hsub⟩ := ih (k + 1) gp.1 (ps ++ [gp.2]) sk
        exact ⟨t, heq, hsub.cons word⟩

theorem tryPlaceWord_word {g : OGrid} {w : String} {wrk : WordRand}
    {gp : OGrid × Placement} (h : tryPlaceWord g w wrk = some gp) :
    gp.2.word = w := by
  obtain ⟨t2, e, -, -, -, hp⟩ := tryFrom_some h
  rw [hp]

theorem tryPlaceWord_length {g : OGrid} {w : String} {wrk : WordRand}
    {gp : OGrid × Placement} (h : tryPlaceWord g w wrk = some gp) :
    gp.1.length = g.length := by
  obtain ⟨t2, e, -, -, hg2, -⟩ := tryFrom_some h
  rw [hg2, placeWord_length]

theorem genLoop_placed (wr : Nat → WordRand) (size : Nat) :
    ∀ (ws : List String) (k : Nat) (g : OGrid) (ps : List Placement)
      (sk : List String),
      ∀ p ∈ (genLoop wr size ws k g ps sk).2.1,
        p ∈ ps ∨ ∃ w ∈ ws, p.word = jsToLower w ∧
          p.word.length ≤ maxLength size := by
  intro ws
  induction ws with
  | nil =>
    intro k g ps sk p hp
    exact Or.inl hp
  | cons word rest ih =>
    intro k g ps sk p hp
    simp only [genLoop] at hp
    by_cases hg : maxLength size < (jsToLower word).length
    · rw [if_pos hg] at hp
      rcases ih _ _ _ _ p hp with h1 | ⟨w, hw, h2⟩
      · exact Or.inl h1
      · exact Or.inr ⟨w, List.mem_cons_of_mem _ hw, h2⟩
    · rw [if_neg hg] at hp
      cases htp : tryPlaceWord g (jsToLower word) (wr k) with
      | none =>
        simp only [htp] at hp
        rcases ih _ _ _ _ p hp with h1 | ⟨w, hw, h2⟩
        · exact Or.inl h1
        · exact Or.inr ⟨w, List.mem_cons_of_mem _ hw, h2⟩
      | some gp =>
        simp only [htp] at hp
        rcases ih _ _ _ _ p hp with h1 | ⟨w, hw, h2⟩
        · rcases List.mem_append.mp h1 with h2 | h2
          · exact Or.inl h2
          · right
            refine ⟨word, List.mem_cons_self _ _, ?_⟩
            rw [List.mem_singleton.mp h2, tryPlaceWord_word htp]
            exact ⟨rfl, Nat.le_of_not_lt hg⟩
        · exact Or.inr ⟨w, List.mem_cons_of_mem _ hw, h2⟩

theorem genLoop_skip_mem (wr : Nat → WordRand) (size : Nat) :
    ∀ (ws : List String) (k : Nat) (g : OGrid) (ps : List Placement)
      (sk : List String) (w : String), w ∈ ws →
      maxLength size < (jsToLower w).length →
      w ∈ (genLoop wr size ws k g ps sk).2.2 := by
  intro ws
  induction ws with
  | nil =>
    intro k g ps sk w hw
    cases hw
  | cons word rest ih =>
    intro k g ps sk w hw hlong
    simp only [genLoop]
    by_cases hg : maxLength size < (jsToLower word).length
    · rw [if_pos hg]
      rcases List.mem_cons.mp hw with rfl | hw2
      · obtain ⟨t, heq, -⟩ := genLoop_skipped_suffix wr size rest (k + 1) g ps (sk ++ [w])
        rw [heq]
        exact List.mem_append_left _ (List.mem_append_right _ (List.mem_singleton_self _))
      · exact ih _ _ _ _ _ hw2 hlong
    · rcases List.mem_cons.mp hw with rfl | hw2
      · exact absurd hlong hg
      · rw [if_neg hg]
        cases htp : tryPlaceWord g (jsToLower word) (wr k) with
        | none =>
          simp only [htp]
          exact ih _ _ _ _ _ hw2 hlong
        | some gp =>
          simp only [htp]
          exact ih _ _ _ _ _ hw2 hlong

/-! ### Words longer than the grid can never be placed -/

theorem canPlace_false_long {g : OGrid} {w : List Char} {r c dr dc : Int}
    (hd : (dr, dc) ∈ unitVecs) (hlen : g.length < w.length) :
    canPlace g w r c dr dc = false := by
  cases hb : canPlace g w r c dr dc
  · rfl
  · exfalso
    have hspec := (canPlace_iff g w r c dr dc).mp hb
    have hlen0 : 0 < w.length := by omega
    have h0 := (hspec 0 hlen0).1
    have hL := (hspec (w.length - 1) (by omega)).1
    simp only [Nat.cast_zero, zero_mul, add_zero] at h0
    rw [unitVecs_eq] at hd
    simp only [List.mem_cons, List.not_mem_nil, or_false] at hd
    rcases hd with h | h | h | h | h | h | h | h <;>
      · rw [Prod.mk.injEq] at h
        obtain ⟨rfl, rfl⟩ := h
        simp only [mul_one, mul_zero, mul_neg_one, add_zero] at hL
        omega

theorem tryPlaceWord_none_long {g : OGrid} {w : String} {wrk : WordRand}
    (hdirs : ∀ e ∈ wrk.dirs, e ∈ dirEntries) (hne : wrk.dirs ≠ [])
    (hlen : g.length < w.data.length) :
    tryPlaceWord g w wrk = none := by
  unfold tryPlaceWord
  refine tryFrom_none hne ?_ 0 200
  intro t e he
  exact canPlace_false_long ((dirEntries_cases (hdirs e he)).2.2.2.1) hlen

theorem genLoop_skip_grid (wr : Nat → WordRand) (size : Nat)
    (hwr : ∀ k, ∀ e ∈ (wr k).dirs, e ∈ dirEntries)
    (hwr2 : ∀ k, (wr k).dirs ≠ []) :
    ∀ (ws : List String) (k : Nat) (g : OGrid) (ps : List Placement)
      (sk : List String) (w : String), g.length = size → w ∈ ws →
      size < (jsToLower w).length →
      w ∈ (genLoop wr size ws k g ps sk).2.2 := by
  intro ws
  induction ws with
  | nil =>
    intro k g ps sk w _ hw
    cases hw
  | cons word rest ih =>
    intro k g ps sk w hglen hw hlong
    simp only [genLoop]
    by_cases hg : maxLength size < (jsToLower word).length
    · rw [if_pos hg]
      rcases List.mem_cons.mp hw with rfl | hw2
      · obtain ⟨t, heq, -⟩ :=
          genLoop_skipped_suffix wr size rest (k + 1) g ps (sk ++ [w])
        rw [heq]
        exact List.mem_append_left _
          (List.mem_append_right _ (List.mem_singleton_self _))
      · exact ih _ _ _ _ _ hglen hw2 hlong
    · rw [if_neg hg]
      cases htp : tryPlaceWord g (jsToLower word) (wr k) with
      | none =>
        simp only [htp]
        rcases List.mem_cons.mp hw with rfl | hw2
        · obtain ⟨t, heq, -⟩ :=
            genLoop_skipped_suffix wr size rest (k + 1) g ps (sk ++ [w])
          rw [heq]
          exact List.mem_append_left _
            (List.mem_append_right _ (List.mem_singleton_self _))
        · exact ih _ _ _ _ _ hglen hw2 hlong
      | some gp =>
        simp only [htp]
        rcases List.mem_cons.mp hw with rfl | hw2
        · exfalso
          have hnone := tryPlaceWord_none_long (w := jsToLower w) (hwr k) (hwr2 k)
            (by rw [hglen]; exact hlong)
          rw [hnone] at htp
          cases htp
        · refine ih _ _ _ _ _ ?_ hw2 hlong
          rw [tryPlaceWord_length htp]
          exact hglen

/-! ### The filler pass -/

theorem fillRow_length (lang : String) (fill : Nat → Nat → Nat) (r : Nat) :
    ∀ (row : List (Option Char)) (c : Nat),
      (fillRow lang fill r c row).length = row.length := by
  intro row
  induction row with
  | nil =>
    intro c
    rfl
  | cons cell rest ih =>
    intro c
    simp only [fillRow, List.length_cons, ih]

theorem fillRows_length (lang : String) (fill : Nat → Nat → Nat) :
    ∀ (g : OGrid) (r : Nat), (fillRows lang fill r g).length = g.length := by
  intro g
  induction g with
  | nil =>
    intro r
    rfl
  | cons row rest ih =>
    intro r
    simp only [fillRows, List.length_cons, ih]

theorem fillRow_getD (lang : String) (fill : Nat → Nat → Nat) (r : Nat) :
    ∀ (row : List (Option Char)) (c0 j : Nat), j < row.length →
      (fillRow lang fill r c0 row).getD j ' ' =
        (row.getD j none).getD (randomChar lang (fill r (c0 + j))) := by
  intro row
  induction row with
  | nil =>
    intro c0 j hj
    simp at hj
  | cons cell rest ih =>
    intro c0 j hj
    cases j with
    | zero =>
      simp only [fillRow, List.getD_cons_zero, Nat.add_zero]
      cases cell <;> rfl
    | succ j =>
      simp only [fillRow, List.getD_cons_succ]
      rw [ih (c0 + 1) j (by simpa using Nat.lt_of_succ_lt_succ hj)]
      have : c0 + 1 + j = c0 + (j + 1) := by omega
      rw [this]

theorem fillRows_getD (lang : String) (fill : Nat → Nat → Nat) :
    ∀ (g : OGrid) (r0 i : Nat), i < g.length →
      (fillRows lang fill r0 g).getD i [] =
        fillRow lang fill (r0 + i) 0 (g.getD i []) := by
  intro g
  induction g with
  | nil =>
    intro r0 i hi
    simp at hi
  | cons row rest ih =>
    intro r0 i hi
    cases i with
    | zero =>
      simp only [fillRows, List.getD_cons_zero, Nat.add_zero]
    | succ i =>
      simp only [fillRows, List.getD_cons_succ]
      rw [ih (r0 + 1) i (by simpa using Nat.lt_of_succ_lt_succ hi)]
      have : r0 + 1 + i = r0 + (i + 1) := by omega
      rw [this]

theorem fillGrid_read {size : Nat} {g : OGrid} (hwf : GridWF size g)
    (lang : String) (fill : Nat → Nat → Nat) {R C : Nat}
    (hR : R < size) (hC : C < size) :
    ((fillRows lang fill 0 g).getD R []).getD C ' ' =
      (ogGet g R C).getD (randomChar lang (fill R C)) := by
  have hRlen : R < g.length := by
    rw [hwf.1]
    exact hR
  rw [fillRows_getD lang fill g 0 R hRlen]
  have hrow : (g.getD R []).length = size := by
    have hmem : g.getD R [] ∈ g := by
      rw [List.getD_eq_getElem?_getD, List.getElem?_eq_getElem hRlen]
      exact List.getElem_mem hRlen
    exact hwf.2 _ hmem
  rw [Nat.zero_add]
  rw [fillRow_getD lang fill R (g.getD R []) 0 C (by rw [hrow]; exact hC)]
  rw [Nat.zero_add]
  rfl

/-! ### Remaining generator helpers -/

theorem maxLength_eq {s m : Nat} (h1 : m * m ≤ 2 * s * s)
    (h2 : 2 * s * s < (m + 1) * (m + 1)) : maxLength s = m := by
  unfold maxLength
  have ha : m ≤ Nat.sqrt (2 * s * s) := Nat.le_sqrt.mpr h1
  have hb : Nat.sqrt (2 * s * s) < m + 1 := Nat.sqrt_lt.mpr h2
  omega

theorem insertByLen_perm (w : String) (l : List String) :
    (insertByLen w l).Perm (w :: l) := by
  induction l with
  | nil => exact List.Perm.refl _
  | cons x xs ih =>
    rw [insertByLen]
    by_cases h : x.length < w.length
    · rw [if_pos h]
    · rw [if_neg h]
      exact (ih.cons x).trans (List.Perm.swap w x xs)

theorem sortFold_perm : ∀ (ws acc : List String),
    (ws.foldl (fun a w => insertByLen w a) acc).Perm (ws ++ acc) := by
  intro ws
  induction ws with
  | nil =>
    intro acc
    exact List.Perm.refl _
  | cons w rest ih =>
    intro acc
    have h1 := ih (insertByLen w acc)
    have h2 : (rest ++ insertByLen w acc).Perm (rest ++ (w :: acc)) :=
      List.Perm.append_left rest (insertByLen_perm w acc)
    have h3 : (rest ++ (w :: acc)).Perm (w :: (rest ++ acc)) := List.perm_middle
    simpa using (h1.trans h2).trans h3

theorem sortWords_perm (ws : List String) : (sortWords ws).Perm ws := by
  have := sortFold_perm ws []
  simpa [sortWords] using this

theorem randomChar_mem {lang : String} {idx : Nat}
    (h : idx < (ALPHABETS lang).length) :
    randomChar lang idx ∈ (ALPHABETS lang).data := by
  unfold randomChar
  have h2 : idx < (ALPHABETS lang).data.length := h
  rw [List.getD_eq_getElem?_getD, List.getElem?_eq_getElem h2]
  exact List.getElem_mem h2

theorem fillRows_mem (lang : String) (fill : Nat → Nat → Nat) :
    ∀ (g : OGrid) (r0 : Nat) (row : List Char),
      row ∈ fillRows lang fill r0 g →
      ∃ (r : Nat) (row0 : List (Option Char)),
        row0 ∈ g ∧ row = fillRow lang fill r 0 row0 := by
  intro g
  induction g with
  | nil =>
    intro r0 row h
    cases h
  | cons row1 rest ih =>
    intro r0 row h
    rcases List.mem_cons.mp h with rfl | h2
    · exact ⟨r0, row1, List.mem_cons_self _ _, rfl⟩
    · obtain ⟨r, row0, hm, he⟩ := ih (r0 + 1) row h2
      exact ⟨r, row0, List.mem_cons_of_mem _ hm, he⟩

theorem generateGrid_inv (words : List String) (size : Nat)
    (wr : Nat → WordRand) (hwr : ∀ k, (wr k).Valid size) :
    GenInv size
      (genLoop wr size (sortWords words) 0 (createEmptyGrid size) [] []).1
      (genLoop wr size (sortWords words) 0 (createEmptyGrid size) [] []).2.1 :=
  genLoop_inv wr (fun k => valid_dirs_mem (hwr k)) (fun k => valid_dirs_ne (hwr k))
    (sortWords words) 0 _ [] [] (genInv_empty size)

theorem constWr_valid (size : Nat) (h : 0 < size) :
    ∀ k, (constWr k).Valid size :=
  fun _ => ⟨List.Perm.refl _, fun _ => ⟨h, h⟩⟩

/-- The returned character grid has exactly gridSize rows. -/
theorem generateGrid_grid_length (words : List String) (gridSize : Nat)
    (lang : String) (wr : Nat → WordRand) (fill : Nat → Nat → Nat)
    (hwr : ∀ k, (wr k).Valid gridSize) :
    (generateGrid words gridSize lang wr fill).grid.length = gridSize := by
  have hinv := generateGrid_inv words gridSize wr hwr
  have hgr : (generateGrid words gridSize lang wr fill).grid =
      fillRows lang fill 0
        (genLoop wr gridSize (sortWords words) 0
          (createEmptyGrid gridSize) [] []).1 := rfl
  rw [hgr, fillRows_length, hinv.wf.1]

/-- Reading the final grid along a placement's cells gives back its word. -/
theorem generateGrid_map_read (words : List String) (gridSize : Nat)
    (lang : String) (wr : Nat → WordRand) (fill : Nat → Nat → Nat)
    (hwr : ∀ k, (wr k).Valid gridSize) :
    ∀ p ∈ (generateGrid words gridSize lang wr fill).placements,
      p.cells.map (gridChar (generateGrid words gridSize lang wr fill).grid) =
        p.word.data := by
  intro p hp
  have hinv := generateGrid_inv words gridSize wr hwr
  obtain ⟨dm, ce, ib, ch, lo, ll⟩ := hinv.good p hp
  rw [ce, mkCells_eq_map, List.map_map]
  have hpt : ∀ i ∈ List.range p.word.data.length,
      (gridChar (generateGrid words gridSize lang wr fill).grid ∘
        cellAt p.row p.col p.dr p.dc) i = p.word.data.getD i 'a' := by
    intro i hi
    have hir := List.mem_range.mp hi
    obtain ⟨hb1, hb2, hb3, hb4⟩ := ib i hir
    have hRn : ((p.row : Int) + (i : Int) * p.dr).toNat < gridSize := by omega
    have hCn : ((p.col : Int) + (i : Int) * p.dc).toNat < gridSize := by omega
    show gridChar (generateGrid words gridSize lang wr fill).grid
      (cellAt p.row p.col p.dr p.dc i) = p.word.data.getD i 'a'
    have hgr : (generateGrid words gridSize lang wr fill).grid =
        fillRows lang fill 0
          (genLoop wr gridSize (sortWords words) 0
            (createEmptyGrid gridSize) [] []).1 := rfl
    simp only [gridChar, cellAt, hgr]
    rw [fillGrid_read hinv.wf lang fill hRn hCn, ch i hir]
    rfl
  rw [List.map_congr_left hpt, getD_map_range]

/-! ### Claims C1 and C3 -/

/-- C1: every placement returned by generateGrid is a straight-line run of
exactly word-length cells from the recorded start in the recorded unit
direction, fully in bounds, and the returned grid read along those cells
reproduces the placement's (lowercased) word — also after later words and
filler are written. -/
theorem claim_C1_placements_sound (words : List String) (gridSize : Nat)
    (lang : String) (wr : Nat → WordRand) (fill : Nat → Nat → Nat)
    (hwr : ∀ k, (wr k).Valid gridSize) :
    ∀ p ∈ (generateGrid words gridSize lang wr fill).placements,
      (⟨p.dr, p.dc, p.direction⟩ : DirEntry) ∈ dirEntries ∧
      p.cells = mkCells p.row p.col p.dr p.dc p.word.length ∧
      (∀ c ∈ p.cells, inB gridSize c) ∧
      p.cells.map (gridChar (generateGrid words gridSize lang wr fill).grid) =
        p.word.data := by
  intro p hp
  have hinv := generateGrid_inv words gridSize wr hwr
  obtain ⟨dm, ce, ib, ch, lo, ll⟩ := hinv.good p hp
  refine ⟨dm, ce, ?_, generateGrid_map_read words gridSize lang wr fill hwr p hp⟩
  intro c hc
  rw [ce, mkCells_eq_map] at hc
  obtain ⟨i, hi, rfl⟩ := List.mem_map.mp hc
  exact ib i (List.mem_range.mp hi)

/-- Witness for C1 at a concrete generation run. -/
theorem claim_C1_witness :
    (∀ k, (constWr k).Valid 3) ∧
    ∀ p ∈ (generateGrid ["cat"] 3 "en" constWr constFill).placements,
      (⟨p.dr, p.dc, p.direction⟩ : DirEntry) ∈ dirEntries ∧
      p.cells = mkCells p.row p.col p.dr p.dc p.word.length ∧
      (∀ c ∈ p.cells, inB 3 c) ∧
      p.cells.map (gridChar (generateGrid ["cat"] 3 "en" constWr constFill).grid) =
        p.word.data :=
  ⟨constWr_valid 3 (by omega),
   claim_C1_placements_sound ["cat"] 3 "en" constWr constFill
     (constWr_valid 3 (by omega))⟩

/-- C3: for positive gridSize the returned grid is gridSize × gridSize,
every cell holds exactly one character, and each character is either the
letter of a placed word at that cell or a filler character from the
language alphabet. -/
theorem claim_C3_grid_fully_populated (words : List String) (gridSize : Nat)
    (lang : String) (wr : Nat → WordRand) (fill : Nat → Nat → Nat)
    (_hpos : 0 < gridSize)
    (hwr : ∀ k, (wr k).Valid gridSize)
    (hfill : ∀ r c, fill r c < (ALPHABETS lang).length) :
    (generateGrid words gridSize lang wr fill).grid.length = gridSize ∧
    (∀ row ∈ (generateGrid words gridSize lang wr fill).grid,
      row.length = gridSize) ∧
    ∀ r < gridSize, ∀ c < gridSize,
      (∃ p ∈ (generateGrid words gridSize lang wr fill).placements,
        ∃ i, i < p.word.length ∧
          (((p.row : Int) + (i : Int) * p.dr).toNat,
           ((p.col : Int) + (i : Int) * p.dc).toNat) = (r, c) ∧
          p.word.data.getD i 'a' =
            (((generateGrid words gridSize lang wr fill).grid.getD r []).getD
              c ' ')) ∨
      (((generateGrid words gridSize lang wr fill).grid.getD r []).getD c ' ')
        ∈ (ALPHABETS lang).data := by
  have hinv := generateGrid_inv words gridSize wr hwr
  have hgr : (generateGrid words gridSize lang wr fill).grid =
      fillRows lang fill 0
        (genLoop wr gridSize (sortWords words) 0
          (createEmptyGrid gridSize) [] []).1 := rfl
  refine ⟨?_, ?_, ?_⟩
  · rw [hgr, fillRows_length, hinv.wf.1]
  · intro row hrow
    rw [hgr] at hrow
    obtain ⟨r, row0, hm, rfl⟩ := fillRows_mem lang fill _ 0 row hrow
    rw [fillRow_length]
    exact hinv.wf.2 _ hm
  · intro r hr c hc
    have hread := fillGrid_read hinv.wf lang fill hr hc
    cases hog : ogGet (genLoop wr gridSize (sortWords words) 0
        (createEmptyGrid gridSize) [] []).1 r c with
    | some x =>
      left
      obtain ⟨p, hpm, i, hi, hpos2, hch⟩ := hinv.covered r c x hog
      refine ⟨p, hpm, i, hi, hpos2, ?_⟩
      rw [hgr, hread, hog, hch]
      rfl
    | none =>
      right
      rw [hgr, hread, hog]
      exact randomChar_mem (hfill r c)

/-- Witness for C3 at a concrete generation run. -/
theorem claim_C3_witness :
    (0 < 1 ∧ (∀ k, (constWr k).Valid 1) ∧
      (∀ r c, constFill r c < (ALPHABETS "en").length)) ∧
    ((generateGrid ["a"] 1 "en" constWr constFill).grid.length = 1 ∧
    (∀ row ∈ (generateGrid ["a"] 1 "en" constWr constFill).grid,
      row.length = 1) ∧
    ∀ r < 1, ∀ c < 1,
      (∃ p ∈ (generateGrid ["a"] 1 "en" constWr constFill).placements,
        ∃ i, i < p.word.length ∧
          (((p.row : Int) + (i : Int) * p.dr).toNat,
           ((p.col : Int) + (i : Int) * p.dc).toNat) = (r, c) ∧
          p.word.data.getD i 'a' =
            (((generateGrid ["a"] 1 "en" constWr constFill).grid.getD r []).getD
              c ' ')) ∨
      (((generateGrid ["a"] 1 "en" constWr constFill).grid.getD r []).getD c ' ')
        ∈ (ALPHABETS "en").data) := by
  have h1 : (0 : Nat) < 1 := by omega
  have h2 := constWr_valid 1 h1
  have h3 : ∀ r c : Nat, constFill r c < (ALPHABETS "en").length := by
    intro r c
    show 0 < (ALPHABETS "en").length
    decide
  exact ⟨⟨h1, h2, h3⟩,
    claim_C3_grid_fully_populated ["a"] 1 "en" constWr constFill h1 h2 h3⟩

/-! ### Claims C9, C6, C10 -/

/-- C9 (implicit): generateGrid partitions the input words — placement and
skip counts add up to the word count; skipped words are original strings
(a sublist of the sorted copy, which is a permutation of the untouched
input); every placement's word is the lowercase of some input word. -/
theorem claim_C9_word_partition (words : List String) (gridSize : Nat)
    (lang : String) (wr : Nat → WordRand) (fill : Nat → Nat → Nat) :
    (generateGrid words gridSize lang wr fill).placements.length +
      (generateGrid words gridSize lang wr fill).skipped.length =
        words.length ∧
    (generateGrid words gridSize lang wr fill).skipped.Sublist
      (sortWords words) ∧
    (sortWords words).Perm words ∧
    ∀ p ∈ (generateGrid words gridSize lang wr fill).placements,
      ∃ w ∈ words, p.word = jsToLower w := by
  refine ⟨?_, ?_, sortWords_perm words, ?_⟩
  · have hc := genLoop_counts wr gridSize (sortWords words) 0
      (createEmptyGrid gridSize) [] []
    have hl := (sortWords_perm words).length_eq
    simpa [hl] using hc
  · obtain ⟨t, heq, hsub⟩ := genLoop_skipped_suffix wr gridSize
      (sortWords words) 0 (createEmptyGrid gridSize) [] []
    have : (generateGrid words gridSize lang wr fill).skipped =
        (genLoop wr gridSize (sortWords words) 0
          (createEmptyGrid gridSize) [] []).2.2 := rfl
    rw [this, heq]
    simpa using hsub
  · intro p hp
    rcases genLoop_placed wr gridSize (sortWords words) 0
        (createEmptyGrid gridSize) [] [] p hp with h1 | ⟨w, hw, hlo, -⟩
    · cases h1
    · exact ⟨w, (sortWords_perm words).mem_iff.mp hw, hlo⟩

/-- Witness for C9 at a concrete input (counting conjunct instantiated). -/
theorem claim_C9_witness :
    (generateGrid ["cat", "dog"] 4 "en" constWr constFill).placements.length +
      (generateGrid ["cat", "dog"] 4 "en" constWr constFill).skipped.length =
        2 :=
  (claim_C9_word_partition ["cat", "dog"] 4 "en" constWr constFill).1

/-- C6: any word whose lowercase form is longer than floor(sqrt(2) ×
gridSize) is always skipped and never placed, and the concrete call
generateGrid(["abcdefghij"], 3, "en") returns no placements, skips the
word, and fills the whole 3×3 grid with filler characters. -/
theorem claim_C6_diagonal_bound :
    (∀ (words : List String) (gridSize : Nat) (lang : String)
        (wr : Nat → WordRand) (fill : Nat → Nat → Nat) (w : String),
      w ∈ words → maxLength gridSize < (jsToLower w).length →
      w ∈ (generateGrid words gridSize lang wr fill).skipped ∧
      ∀ p ∈ (generateGrid words gridSize lang wr fill).placements,
        p.word ≠ jsToLower w) ∧
    (∀ (wr : Nat → WordRand) (fill : Nat → Nat → Nat),
      (generateGrid ["abcdefghij"] 3 "en" wr fill).placements = [] ∧
      (generateGrid ["abcdefghij"] 3 "en" wr fill).skipped = ["abcdefghij"] ∧
      (generateGrid ["abcdefghij"] 3 "en" wr fill).grid =
        [[randomChar "en" (fill 0 0), randomChar "en" (fill 0 1),
          randomChar "en" (fill 0 2)],
         [randomChar "en" (fill 1 0), randomChar "en" (fill 1 1),
          randomChar "en" (fill 1 2)],
         [randomChar "en" (fill 2 0), randomChar "en" (fill 2 1),
          randomChar "en" (fill 2 2)]]) := by
  constructor
  · intro words gridSize lang wr fill w hw hlong
    constructor
    · exact genLoop_skip_mem wr gridSize (sortWords words) 0
        (createEmptyGrid gridSize) [] [] w
        ((sortWords_perm words).mem_iff.mpr hw) hlong
    · intro p hp heq
      rcases genLoop_placed wr gridSize (sortWords words) 0
          (createEmptyGrid gridSize) [] [] p hp with h1 | ⟨w2, -, -, hlen⟩
      · cases h1
      · rw [heq] at hlen
        omega
  · intro wr fill
    have hm : maxLength 3 = 4 := maxLength_eq (by norm_num) (by norm_num)
    have hguard : maxLength 3 < (jsToLower "abcdefghij").length := by
      rw [hm]
      decide
    have hsort : sortWords ["abcdefghij"] = ["abcdefghij"] := rfl
    have hrun : genLoop wr 3 ["abcdefghij"] 0 (createEmptyGrid 3) [] [] =
        (createEmptyGrid 3, [], ["abcdefghij"]) := by
      simp only [genLoop]
      rw [if_pos hguard]
      rfl
    refine ⟨?_, ?_, ?_⟩
    · show (genLoop wr 3 (sortWords ["abcdefghij"]) 0
        (createEmptyGrid 3) [] []).2.1 = []
      rw [hsort, hrun]
    · show (genLoop wr 3 (sortWords ["abcdefghij"]) 0
        (createEmptyGrid 3) [] []).2.2 = ["abcdefghij"]
      rw [hsort, hrun]
    · show fillRows "en" fill 0 (genLoop wr 3 (sortWords ["abcdefghij"]) 0
        (createEmptyGrid 3) [] []).1 = _
      rw [hsort, hrun]
      rfl

/-- Witness for C6 at the concrete long-word input. -/
theorem claim_C6_witness :
    ("abcdefghij" ∈ ["abcdefghij"] ∧
      maxLength 3 < (jsToLower "abcdefghij").length) ∧
    ("abcdefghij" ∈
        (generateGrid ["abcdefghij"] 3 "en" constWr constFill).skipped ∧
      ∀ p ∈ (generateGrid ["abcdefghij"] 3 "en" constWr constFill).placements,
        p.word ≠ jsToLower "abcdefghij") := by
  have h1 : "abcdefghij" ∈ ["abcdefghij"] := List.mem_singleton_self _
  have h2 : maxLength 3 < (jsToLower "abcdefghij").length := by
    rw [maxLength_eq (s := 3) (m := 4) (by norm_num) (by norm_num)]
    decide
  exact ⟨⟨h1, h2⟩,
    claim_C6_diagonal_bound.1 ["abcdefghij"] 3 "en" constWr constFill
      "abcdefghij" h1 h2⟩

/-- C10 (implicit): a word strictly longer than gridSize can never be
placed: canPlace is false at every start cell for each of the 8 unit
directions, tryPlaceWord exhausts its attempts and returns none, and
generateGrid always puts such a word in skipped. -/
theorem claim_C10_longer_than_grid :
    (∀ (g : OGrid) (w : List Char) (r c dr dc : Int),
      (dr, dc) ∈ unitVecs → g.length < w.length →
      canPlace g w r c dr dc = false) ∧
    (∀ (g : OGrid) (w : String) (wrk : WordRand),
      (∀ e ∈ wrk.dirs, e ∈ dirEntries) → wrk.dirs ≠ [] →
      g.length < w.length → tryPlaceWord g w wrk = none) ∧
    (∀ (words : List String) (gridSize : Nat) (lang : String)
        (wr : Nat → WordRand) (fill : Nat → Nat → Nat) (w : String),
      (∀ k, (wr k).Valid gridSize) → w ∈ words →
      gridSize < (jsToLower w).length →
      w ∈ (generateGrid words gridSize lang wr fill).skipped) := by
  refine ⟨fun g w r c dr dc hd hl => canPlace_false_long hd hl,
    fun g w wrk h1 h2 h3 => tryPlaceWord_none_long h1 h2 h3,
    fun words gridSize lang wr fill w hwr hw hlong => ?_⟩
  exact genLoop_skip_grid wr gridSize (fun k => valid_dirs_mem (hwr k))
    (fun k => valid_dirs_ne (hwr k)) (sortWords words) 0 _ [] [] w
    (List.length_replicate _ _) ((sortWords_perm words).mem_iff.mpr hw) hlong

/-- Witness for C10: a 4-letter word on a 3×3 grid is always skipped. -/
theorem claim_C10_witness :
    ((∀ k, (constWr k).Valid 3) ∧ "abcd" ∈ ["abcd"] ∧
      3 < (jsToLower "abcd").length) ∧
    "abcd" ∈ (generateGrid ["abcd"] 3 "en" constWr constFill).skipped := by
  have h1 := constWr_valid 3 (by omega)
  have h2 : "abcd" ∈ ["abcd"] := List.mem_singleton_self _
  have h3 : 3 < (jsToLower "abcd").length := by decide
  exact ⟨⟨h1, h2, h3⟩,
    claim_C10_longer_than_grid.2.2 ["abcd"] 3 "en" constWr constFill
      "abcd" h1 h2 h3⟩

/-! ### Geometry of a placement's cell list -/

theorem mkCells_length (row col : Nat) (dr dc : Int) (len : Nat) :
    (mkCells row col dr dc len).length = len := by
  rw [mkCells_eq_map, List.length_map, List.length_range]

theorem mkCells_chain (row col : Nat) (dr dc : Int) (len : Nat) :
    List.Chain' (fun a b => (b.row - a.row, b.col - a.col) = (dr, dc))
      (mkCells row col dr dc len) := by
  rw [mkCells_eq_map, List.chain'_map]
  cases len with
  | zero => simp
  | succ n =>
    rw [List.chain'_range_succ]
    intro m hm
    simp only [cellAt, Prod.mk.injEq]
    constructor <;> (push_cast; ring)

theorem chain_ne_of_delta {d : Int × Int} (hd : d ≠ (0, 0)) {l : List Cell}
    (h : List.Chain' (fun a b => (b.row - a.row, b.col - a.col) = d) l) :
    List.Chain' (fun a b => a ≠ b) l := by
  refine h.imp ?_
  intro a b hab heq
  rw [heq] at hab
  simp only [sub_self] at hab
  exact hd hab.symm

theorem chain_delta_reverse {l : List Cell} {dr dc : Int}
    (h : List.Chain' (fun a b => (b.row - a.row, b.col - a.col) = (dr, dc)) l) :
    List.Chain' (fun a b => (b.row - a.row, b.col - a.col) = (-dr, -dc))
      l.reverse := by
  rw [List.chain'_reverse]
  refine h.imp ?_
  intro a b hab
  rw [Prod.mk.injEq] at hab
  show (a.row - b.row, a.col - b.col) = (-dr, -dc)
  rw [Prod.mk.injEq]
  constructor <;> omega

theorem lineName_of_chain {cells : List Cell} {dr dc : Int} {nm : String}
    (h2 : 2 ≤ cells.length)
    (hch : List.Chain' (fun a b => (b.row - a.row, b.col - a.col) = (dr, dc))
      cells)
    (hnm : validatorDirName dr dc = some nm) :
    lineName cells = some nm := by
  match cells, h2 with
  | c0 :: c1 :: rest, _ =>
    unfold lineName
    rw [getLineDirection_cons₂]
    rw [List.chain'_cons] at hch
    obtain ⟨h01, hcht⟩ := hch
    rw [Prod.mk.injEq] at h01
    obtain ⟨e1, e2⟩ := h01
    rw [e1, e2, if_pos ((sameDelta_iff dr dc c1 rest).mpr hcht), hnm]
    rfl

theorem mkCells_head (row col : Nat) (dr dc : Int) (len : Nat) (h : 0 < len) :
    (mkCells row col dr dc len).head? = some ⟨(row : Int), (col : Int)⟩ := by
  cases len with
  | zero => omega
  | succ n =>
    rw [mkCells_eq_map, List.range_succ_eq_map]
    simp only [List.map_cons, List.head?_cons, cellAt]
    simp

/-! ### Claim C2 -/

/-- C2 (amended): for every word of at least 2 letters that generateGrid
placed with cells C and direction D, checkSelection(grid, C, [word])
returns found=true, word, direction=D and the recorded start cell; and
when C is supplied in reverse order and the reversed string still matches
the word (palindrome), the reverse-direction name is reported instead. -/
theorem claim_C2_round_trip (words : List String) (gridSize : Nat)
    (lang : String) (wr : Nat → WordRand) (fill : Nat → Nat → Nat)
    (hwr : ∀ k, (wr k).Valid gridSize) :
    ∀ p ∈ (generateGrid words gridSize lang wr fill).placements,
      2 ≤ p.word.length →
      (checkSelection (generateGrid words gridSize lang wr fill).grid
          p.cells [p.word] =
        ⟨true, true, some p.word, some p.direction,
         some ⟨(p.row : Int), (p.col : Int)⟩, p.cells⟩) ∧
      (jsReverse p.word = p.word →
        checkSelection (generateGrid words gridSize lang wr fill).grid
            p.cells.reverse [p.word] =
          ⟨true, true, some p.word, some (revName p.direction),
           p.cells.reverse.head?, p.cells.reverse⟩) := by
  intro p hp hlen2
  have hinv := generateGrid_inv words gridSize wr hwr
  obtain ⟨dm, ce, ib, ch, lo, ll⟩ := hinv.good p hp
  have hmap := generateGrid_map_read words gridSize lang wr fill hwr p hp
  have hglen := generateGrid_grid_length words gridSize lang wr fill hwr
  obtain ⟨hname, hdne, hrevname, hunit, hrevunit⟩ := dirEntries_cases dm
  have hlen2d : 2 ≤ p.word.data.length := hlen2
  have hcl : p.cells.length = p.word.data.length := by
    rw [ce, mkCells_length]
  have hchain : List.Chain'
      (fun a b => (b.row - a.row, b.col - a.col) = (p.dr, p.dc)) p.cells := by
    rw [ce]
    exact mkCells_chain _ _ _ _ _
  have hne0 : p.cells ≠ [] := by
    intro h0
    rw [h0] at hcl
    simp at hcl
    omega
  have hchne : List.Chain' (fun a b => a ≠ b) p.cells :=
    chain_ne_of_delta hdne hchain
  have hunitline : isUnitLine p.cells := ⟨(p.dr, p.dc), hunit, hchain⟩
  have hnorm : normalizeSelection p.cells = some p.cells :=
    normalizeSelection_self hne0 hchne hunitline
  have hbounds : ∀ c ∈ p.cells,
      inB (generateGrid words gridSize lang wr fill).grid.length c := by
    rw [hglen]
    intro c hc
    rw [ce, mkCells_eq_map] at hc
    obtain ⟨i, hi, rfl⟩ := List.mem_map.mp hc
    exact ib i (List.mem_range.mp hi)
  have hread : readStr (generateGrid words gridSize lang wr fill).grid p.cells =
      p.word := by
    unfold readStr
    rw [hmap]
  have hlowread : jsToLower
      (readStr (generateGrid words gridSize lang wr fill).grid p.cells) =
        p.word := by
    rw [hread, lo]
  have hmemT : jsToLower
      (readStr (generateGrid words gridSize lang wr fill).grid p.cells) ∈
        ([p.word].map jsToLower) := by
    rw [hlowread]
    simp only [List.map_cons, List.map_nil, lo, List.mem_singleton]
  constructor
  · have hfwd := checkSelection_forward hnorm hbounds hmemT
    rw [hfwd, hlowread]
    have hln : lineName p.cells = some p.direction := by
      refine lineName_of_chain ?_ hchain hname
      rw [hcl]
      exact hlen2d
    have hhd : p.cells.head? = some ⟨(p.row : Int), (p.col : Int)⟩ := by
      rw [ce]
      exact mkCells_head p.row p.col p.dr p.dc p.word.data.length (by omega)
    rw [hln, hhd]
  · intro hpal
    have hchainR := chain_delta_reverse hchain
    have hdneR : ((-p.dr : Int), (-p.dc : Int)) ≠ (0, 0) := by
      intro h0
      rw [Prod.mk.injEq] at h0
      refine hdne ?_
      show ((p.dr : Int), (p.dc : Int)) = (0, 0)
      rw [Prod.mk.injEq]
      omega
    have hneR : p.cells.reverse ≠ [] := by
      simpa using hne0
    have hulR : isUnitLine p.cells.reverse :=
      ⟨(-p.dr, -p.dc), hrevunit, hchainR⟩
    have hnormR : normalizeSelection p.cells.reverse = some p.cells.reverse :=
      normalizeSelection_self hneR (chain_ne_of_delta hdneR hchainR) hulR
    have hboundsR : ∀ c ∈ p.cells.reverse,
        inB (generateGrid words gridSize lang wr fill).grid.length c :=
      fun c hc => hbounds c (List.mem_reverse.mp hc)
    have hreadR : readStr (generateGrid words gridSize lang wr fill).grid
        p.cells.reverse = p.word := by
      unfold readStr
      rw [List.map_reverse, hmap]
      show jsReverse p.word = p.word
      exact hpal
    have hlowreadR : jsToLower
        (readStr (generateGrid words gridSize lang wr fill).grid
          p.cells.reverse) = p.word := by
      rw [hreadR, lo]
    have hmemR : jsToLower
        (readStr (generateGrid words gridSize lang wr fill).grid
          p.cells.reverse) ∈ ([p.word].map jsToLower) := by
      rw [hlowreadR]
      simp only [List.map_cons, List.map_nil, lo, List.mem_singleton]
    have hfwd := checkSelection_forward hnormR hboundsR hmemR
    rw [hfwd, hlowreadR]
    have hlnR : lineName p.cells.reverse = some (revName p.direction) := by
      refine lineName_of_chain ?_ hchainR hrevname
      rw [List.length_reverse, hcl]
      exact hlen2d
    rw [hlnR]

/-- C2 counterexample: a single-letter word is placed with a recorded
direction ("right"), yet checkSelection on its cell sequence reports
direction null, so the claim fails as stated for 1-letter words. -/
theorem claim_C2_counterexample :
    (generateGrid ["a"] 1 "en" constWr constFill).placements =
      [⟨"a", 0, 0, "right", 0, 1, [⟨0, 0⟩]⟩] ∧
    checkSelection (generateGrid ["a"] 1 "en" constWr constFill).grid
        [⟨0, 0⟩] ["a"] =
      ⟨true, true, some "a", none, some ⟨0, 0⟩, [⟨0, 0⟩]⟩ := by
  have hm : maxLength 1 = 1 := maxLength_eq (by norm_num) (by norm_num)
  have hguard : ¬ maxLength 1 < (jsToLower "a").length := by
    rw [hm]
    decide
  have hrun : genLoop constWr 1 ["a"] 0 (createEmptyGrid 1) [] [] =
      ([[some 'a']], [⟨"a", 0, 0, "right", 0, 1, [⟨0, 0⟩]⟩], []) := by
    simp only [genLoop]
    rw [if_neg hguard]
    rfl
  constructor
  · show (genLoop constWr 1 (sortWords ["a"]) 0
      (createEmptyGrid 1) [] []).2.1 = _
    rw [show sortWords ["a"] = ["a"] from rfl, hrun]
  · have hgrid : (generateGrid ["a"] 1 "en" constWr constFill).grid =
        [['a']] := by
      show fillRows "en" constFill 0 (genLoop constWr 1 (sortWords ["a"]) 0
        (createEmptyGrid 1) [] []).1 = _
      rw [show sortWords ["a"] = ["a"] from rfl, hrun]
      rfl
    rw [hgrid]
    decide

/-- Witness for C2 (amended) at a concrete run placing "cat". -/
theorem claim_C2_witness :
    (∀ k, (constWr k).Valid 3) ∧
    checkSelection (generateGrid ["cat"] 3 "en" constWr constFill).grid
        [⟨0, 0⟩, ⟨0, 1⟩, ⟨0, 2⟩] ["cat"] =
      ⟨true, true, some "cat", some "right", some ⟨0, 0⟩,
       [⟨0, 0⟩, ⟨0, 1⟩, ⟨0, 2⟩]⟩ := by
  have hv := constWr_valid 3 (by omega)
  have hm : maxLength 3 = 4 := maxLength_eq (by norm_num) (by norm_num)
  have hguard : ¬ maxLength 3 < (jsToLower "cat").length := by
    rw [hm]
    decide
  have hrun : genLoop constWr 3 ["cat"] 0 (createEmptyGrid 3) [] [] =
      ([[some 'c', some 'a', some 't'], [none, none, none],
        [none, none, none]],
       [⟨"cat", 0, 0, "right", 0, 1, [⟨0, 0⟩, ⟨0, 1⟩, ⟨0, 2⟩]⟩], []) := by
    simp only [genLoop]
    rw [if_neg hguard]
    rfl
  have hplace : (generateGrid ["cat"] 3 "en" constWr constFill).placements =
      [⟨"cat", 0, 0, "right", 0, 1, [⟨0, 0⟩, ⟨0, 1⟩, ⟨0, 2⟩]⟩] := by
    show (genLoop constWr 3 (sortWords ["cat"]) 0
      (createEmptyGrid 3) [] []).2.1 = _
    rw [show sortWords ["cat"] = ["cat"] from rfl, hrun]
  have hp : (⟨"cat", 0, 0, "right", 0, 1,
      [⟨0, 0⟩, ⟨0, 1⟩, ⟨0, 2⟩]⟩ : Placement) ∈
      (generateGrid ["cat"] 3 "en" constWr constFill).placements := by
    rw [hplace]
    exact List.mem_singleton_self _
  exact ⟨hv, (claim_C2_round_trip ["cat"] 3 "en" constWr constFill hv _ hp
    (by decide)).1⟩
